import Mathlib

/-!
# thefox `LogFile`: the rolling log writer

A shallow embedding of `src/log/LogFile.cpp` (POSIX branch) and the properties of
its rotation / append engine.

Conventions of the embedding

* `size_t` values are natural numbers; every arithmetic operation the source
  performs on them is reduced modulo `2 ^ w`, `w` being the width of `size_t`.
* `time_t` values are integers; `/` on them is C's truncating division
  (`Int.tdiv`).
* What the C library and the operating system answer is an explicit input:
  the results of `fwrite`, the readings of `time(NULL)`, the function
  `localtime`, the process id, the current working directory.
* `fopen` is taken to succeed (the source does not test its result), except in
  `LogFile.newIn`, the construction that follows the answers of `mkdir` and
  `fopen`.
* A loop whose termination depends on those answers carries a fuel argument
  and returns `none` when the fuel runs out.
-/

namespace thefox

/-! ## Collaborators -/

/-- The fields of C's `struct tm` that the format `".%Y%m%d-%H%M%S"` reads. -/
structure Tm where
  tm_year : Int
  tm_mon : Int
  tm_mday : Int
  tm_hour : Int
  tm_min : Int
  tm_sec : Int
deriving DecidableEq, Repr

/-- The parts of the environment that stay fixed while a process runs.
`kRollPerSeconds` is the constant `LogFile::_kRollPerSeconds`, which is declared
in `log/LogFile.h`. -/
structure Env where
  /-- width of `size_t` in bits -/
  sizeBits : Nat
  /-- the constant `LogFile::_kRollPerSeconds` -/
  kRollPerSeconds : Int
  /-- the function `localtime` -/
  localtime : Int → Tm
  /-- the value of `getpid()` -/
  pid : Int

/-- Subtraction of two `size_t` values, `a - b` modulo `2 ^ w`. -/
def subSize (w a b : Nat) : Nat := (a + 2 ^ w - b % 2 ^ w) % 2 ^ w

/-- Addition of two `size_t` values, `a + b` modulo `2 ^ w`. -/
def addSize (w a b : Nat) : Nat := (a + b) % 2 ^ w

/-! ## `LogFile::File` -/

/-- The class `LogFile::File`.  `_fp` is represented by the name the file was
opened with, the bytes `fwrite` has accepted on it since then (`handle`, in
order) and how many of them `fflush` has forced out (`flushed`). -/
structure File where
  filename : String
  handle : List Char
  flushed : Nat
  writtenBytes : Nat
deriving DecidableEq, Repr

/-- The constructor `File(filename)`: `fopen(filename, "a")`, counter 0. -/
def File.new (filename : String) : File :=
  { filename := filename, handle := [], flushed := 0, writtenBytes := 0 }

/-- The private `File::write(logline, len)`, that is `fwrite(logline, 1, len, _fp)`.
`fwrite i len` is the count the `i`-th call of the current `append` returns when
asked for `len` bytes; that many bytes of `logline` reach the handle. -/
def File.write (fwrite : Nat → Nat → Nat) (i : Nat) (f : File)
    (logline : List Char) (len : Nat) : Nat × File :=
  let x := fwrite i len
  (x, { f with handle := f.handle ++ logline.take x })

/-- The `while (remain > 0)` loop of `File::append`.  The arguments after the
fuel are the index of the next `fwrite` call, the file, `n` and `remain`. -/
def File.appendLoop (w : Nat) (fwrite : Nat → Nat → Nat) (logline : List Char) (len : Nat) :
    Nat → Nat → File → Nat → Nat → Option (File × Nat)
  | 0, _, f, n, remain => if remain > 0 then none else some (f, n)
  | fuel + 1, i, f, n, remain =>
    if remain > 0 then
      let r := File.write fwrite i f (logline.drop n) remain
      if r.1 = 0 then
        -- `ferror` is read, its value is not used; `break`
        some (r.2, n)
      else
        let n1 := addSize w n r.1
        File.appendLoop w fwrite logline len fuel (i + 1) r.2 n1 (subSize w len n1)
    else some (f, n)

/-- The body of `File::append(logline, len)` with `len` the length of `logline`;
the second component is the final value of the local `n`. -/
def File.appendCore (w fuel : Nat) (fwrite : Nat → Nat → Nat) (f : File)
    (logline : List Char) : Option (File × Nat) :=
  let len := logline.length
  let r := File.write fwrite 0 f logline len
  let n := r.1
  let remain := subSize w len n
  match File.appendLoop w fwrite logline len fuel 1 r.2 n remain with
  | none => none
  | some (f2, n2) => some ({ f2 with writtenBytes := addSize w f2.writtenBytes len }, n2)

/-- The method `File::append(logline, len)`: `none` when the loop does not finish within
the fuel. -/
def File.append (w fuel : Nat) (fwrite : Nat → Nat → Nat) (f : File)
    (logline : List Char) : Option File :=
  (File.appendCore w fuel fwrite f logline).map Prod.fst

/-- The method `File::flush()`: `fflush(_fp)`. -/
def File.flush (f : File) : File :=
  { f with flushed := f.handle.length }

/-- An `fwrite` that keeps to its contract: it never reports more bytes than it
was asked to write. -/
def FwriteOk (fwrite : Nat → Nat → Nat) : Prop :=
  ∀ i len, fwrite i len ≤ len

/-- An `fwrite` that accepts everything at once. -/
def fwriteAll : Nat → Nat → Nat := fun _ len => len

/-- An `fwrite` that accepts nothing. -/
def fwriteNone : Nat → Nat → Nat := fun _ _ => 0

/-- An `fwrite` that accepts `k` bytes in its first call and nothing afterwards. -/
def fwriteFirst (k : Nat) : Nat → Nat → Nat :=
  fun i len => if i = 0 then min k len else 0

/-! ## File names -/

/-- The conversion `%d` of `snprintf`. -/
def fmtInt (v : Int) : String := toString v

/-- A two-digit field of `strftime` (`%m`, `%d`, `%H`, `%M`, `%S`): the value in
decimal, with a leading zero when it has one digit. -/
def fmt02 (v : Int) : String :=
  if 0 ≤ v ∧ v < 10 then "0" ++ toString v else toString v

/-- The call `strftime(timebuf, sizeof timebuf, ".%Y%m%d-%H%M%S", tm_time)`.
`%Y` is the year `tm_year + 1900` in decimal, `%m` the month `tm_mon + 1`. -/
def strftimeStamp (t : Tm) : String :=
  "." ++ fmtInt (t.tm_year + 1900) ++ fmt02 (t.tm_mon + 1) ++ fmt02 t.tm_mday
    ++ "-" ++ fmt02 t.tm_hour ++ fmt02 t.tm_min ++ fmt02 t.tm_sec

/-- The method `LogFile::getLogFileName(dir, basename, &now)`; `clock` is what `time(NULL)`
returns.  The result is the file name together with the value stored in `*now`. -/
def getLogFileName (env : Env) (dir basename : String) (clock : Int) : String × Int :=
  let filename := dir ++ basename
  let now := clock
  let tm_time := env.localtime now
  let timebuf := strftimeStamp tm_time
  let filename := filename ++ timebuf
  let pidbuf := "." ++ fmtInt env.pid
  let filename := filename ++ pidbuf
  let filename := filename ++ ".log"
  (filename, now)

/-- The broken-down times all C libraries render alike under `"%Y%m%d-%H%M%S"`:
a four-digit year and every other field within the range `struct tm` gives it. -/
def TmValid (t : Tm) : Prop :=
  1000 ≤ t.tm_year + 1900 ∧ t.tm_year + 1900 ≤ 9999 ∧ 0 ≤ t.tm_mon ∧ t.tm_mon ≤ 11 ∧
    1 ≤ t.tm_mday ∧ t.tm_mday ≤ 31 ∧ 0 ≤ t.tm_hour ∧ t.tm_hour ≤ 23 ∧
    0 ≤ t.tm_min ∧ t.tm_min ≤ 59 ∧ 0 ≤ t.tm_sec ∧ t.tm_sec ≤ 60

instance : DecidablePred TmValid := fun t => by
  unfold TmValid
  infer_instance

/-- The specification's two-digit field: tens and units. -/
def digits2 (n : Nat) : List Char :=
  [Nat.digitChar (n / 10 % 10), Nat.digitChar (n % 10)]

/-- The specification's four-digit field. -/
def digits4 (n : Nat) : List Char :=
  [Nat.digitChar (n / 1000 % 10), Nat.digitChar (n / 100 % 10),
   Nat.digitChar (n / 10 % 10), Nat.digitChar (n % 10)]

/-- The specification's `YYYYMMDD-HHMMSS`, every field zero-padded to its
width. -/
def specTimestamp (year month day hour minute second : Nat) : String :=
  String.mk (digits4 year ++ digits2 month ++ digits2 day ++ ['-'] ++
    digits2 hour ++ digits2 minute ++ digits2 second)

/-- The specification's file name
`<directory><baseName>.<YYYYMMDD-HHMMSS>.<processId>.log`. -/
def specLogFileName (dir basename : String) (year month day hour minute second : Nat)
    (pid : Int) : String :=
  dir ++ basename ++ "." ++ specTimestamp year month day hour minute second ++ "."
    ++ toString pid ++ ".log"

/-! ## `LogFile::makePath` (POSIX branch) -/

/-- A `std::string` read through `c_str()` by the C string functions: the
characters before the first NUL. -/
def cstr (s : List Char) : List Char := s.takeWhile (fun c => c ≠ '\x00')

/-- The `while (*curDir != '\0')` loop of `makePath`.  `done` is the part of
`filePath` before `curDir`, the second argument the part from `curDir` on, the
third the arguments of the `mkdir` calls made so far. -/
def makePathLoop : List Char → List Char → List (List Char) → List Char × List (List Char)
  | done, [], calls => (done, calls)
  | done, c :: rest, calls =>
    if c = '\\' ∨ c = '/' then makePathLoop (done ++ ['/']) rest (calls ++ [done])
    else makePathLoop (done ++ [c]) rest calls

/-- The method `LogFile::makePath(dir)` with `cwd` the answer of `getcwd`.  The result is the
new value of `dir` and the arguments of the `mkdir` calls, in order (their
results are not read by the source).  `none` stands for a run in which `getcwd`
cannot fit its answer or a string function writes or reads past the 1000 bytes
of `filePath`. -/
def makePath (cwd : String) (dir : String) : Option (String × List String) :=
  let d := cstr dir.data
  -- `'/' != dir[0]`; `dir[0]` of an empty string is NUL
  let bAbsolutePath : Bool := decide (dir.data.head? = some '/')
  let filled : Option (List Char) :=
    if !bAbsolutePath then
      let c := cstr cwd.data
      -- `getcwd` and `strcat(filePath, "/")`: `filePath[strlen(filePath)]` is NUL,
      -- so the separator is always appended
      if c.length + 2 ≤ 1000 then
        let p := c ++ ['/']
        -- `strncat(filePath, dir.c_str(), sizeof(filePath) - strlen(filePath))`
        let t := d.take (1000 - p.length)
        if p.length + t.length + 1 ≤ 1000 then some (p ++ t) else none
      else none
    else
      -- `strncpy(filePath, dir.c_str(), sizeof(filePath))`
      if d.length + 1 ≤ 1000 then some d else none
  match filled with
  | none => none
  | some filePath =>
    let r := makePathLoop [] filePath []
    let calls := r.2 ++ [r.1]
    if r.1.getLast? = some '/' then some (String.mk r.1, calls.map String.mk)
    else if r.1.length + 2 ≤ 1000 then some (String.mk (r.1 ++ ['/']), calls.map String.mk)
    else none

/-! ## `LogFile` -/

/-- The class `LogFile`.  `file` is the pointer `_file` (`none` is the null
pointer), `mutex` tells whether `_mutex` is set.  `filesOpened` is not a member
of the class: it counts the executions of `_file.reset(new File(filename))`. -/
structure LogFile where
  dir : String
  basename : String
  rollSize : Nat
  mutex : Bool
  startOfPeriod : Int
  lastRoll : Int
  file : Option File
  filesOpened : Nat
deriving DecidableEq, Repr

/-- The method `LogFile::rollFile()`; `clock` is the reading of `time(NULL)` taken inside
`getLogFileName`. -/
def LogFile.rollFile (env : Env) (s : LogFile) (clock : Int) : LogFile :=
  let r := getLogFileName env s.dir s.basename clock
  let filename := r.1
  let now := r.2
  let start := Int.tdiv now env.kRollPerSeconds * env.kRollPerSeconds
  if now > s.lastRoll then
    { s with lastRoll := now, startOfPeriod := start,
             file := some (File.new filename), filesOpened := s.filesOpened + 1 }
  else s

/-- The method `LogFile::append_unlocked(logline, len)`.  `clock k` is the reading of the
`k`-th call of `time(NULL)` made during this call: when the size test fires the
only call is the one inside `rollFile`; otherwise the first call is the one of
the period test and a second one happens inside `rollFile`.  `none` when `_file`
is null or `File::append` does not finish within the fuel. -/
def LogFile.append_unlocked (env : Env) (fuel : Nat) (fwrite : Nat → Nat → Nat)
    (clock : Nat → Int) (s : LogFile) (logline : List Char) : Option LogFile :=
  match s.file with
  | none => none
  | some f =>
    match f.append env.sizeBits fuel fwrite logline with
    | none => none
    | some f1 =>
      let s1 := { s with file := some f1 }
      if f1.writtenBytes > s1.rollSize then
        some (s1.rollFile env (clock 0))
      else
        let now := clock 0
        let thisPeriod := Int.tdiv now env.kRollPerSeconds * env.kRollPerSeconds
        if thisPeriod ≠ s1.startOfPeriod then
          some (s1.rollFile env (clock 1))
        else
          some { s1 with file := some f1.flush }

/-- The method `LogFile::append(logline, len)`, `len` being the length of
`logline`: both branches run `append_unlocked`, the first one under the lock. -/
def LogFile.append (env : Env) (fuel : Nat) (fwrite : Nat → Nat → Nat)
    (clock : Nat → Int) (s : LogFile) (logline : List Char) : Option LogFile :=
  if s.mutex then s.append_unlocked env fuel fwrite clock logline
  else s.append_unlocked env fuel fwrite clock logline

/-- The method `LogFile::flush()`; `none` when `_file` is null. -/
def LogFile.flush (s : LogFile) : Option LogFile :=
  match s.file with
  | none => none
  | some f => some { s with file := some f.flush }

/-- The constructor `LogFile(dir, basename, rollSize, threadSafe)`; `cwd` is the
answer of `getcwd`, `clock` the reading of `time(NULL)` in the first `rollFile`.
`none` when `makePath` runs past its buffer.  This is the run in which `fopen`
returns a stream; `LogFile.newIn` follows the answers of `fopen` and yields the
same writer whenever it yields one. -/
def LogFile.new (env : Env) (cwd : String) (clock : Int)
    (dir basename : String) (rollSize : Nat) (threadSafe : Bool) : Option LogFile :=
  match makePath cwd dir with
  | none => none
  | some r =>
    let s0 : LogFile :=
      { dir := r.1, basename := basename, rollSize := rollSize, mutex := threadSafe,
        startOfPeriod := 0, lastRoll := 0, file := none, filesOpened := 0 }
    some (s0.rollFile env clock)

/-! ## Runs -/

/-- One call on a `File`: `append` with what `fwrite` answers during it, or
`flush`. -/
inductive FileOp where
  | append (fwrite : Nat → Nat → Nat) (logline : List Char)
  | flush

/-- The length the call hands to `File::append` (0 for `flush`). -/
def FileOp.len : FileOp → Nat
  | .append _ logline => logline.length
  | .flush => 0

/-- The `fwrite` of the call keeps to its contract and the fuel covers its
payload. -/
def FileOp.Ok (fuel : Nat) : FileOp → Prop
  | .append fwrite logline => FwriteOk fwrite ∧ logline.length ≤ fuel
  | .flush => True

/-- Runs one call on a `File`. -/
def File.step (w fuel : Nat) (f : File) : FileOp → Option File
  | .append fwrite logline => f.append w fuel fwrite logline
  | .flush => some f.flush

/-- Runs a sequence of calls on a `File`, first to last. -/
def File.run (w fuel : Nat) : File → List FileOp → Option File
  | f, [] => some f
  | f, op :: ops =>
    match f.step w fuel op with
    | none => none
    | some f1 => File.run w fuel f1 ops

/-- One call on a `LogFile` together with what the environment answers during
it. -/
inductive Op where
  | append (fuel : Nat) (fwrite : Nat → Nat → Nat) (clock : Nat → Int) (logline : List Char)
  | flush
  | rollFile (clock : Int)

/-- Runs one call on a `LogFile`. -/
def LogFile.step (env : Env) (s : LogFile) : Op → Option LogFile
  | .append fuel fwrite clock logline => s.append env fuel fwrite clock logline
  | .flush => s.flush
  | .rollFile clock => some (s.rollFile env clock)

/-- The states reached from construction by `append`, `flush` and `rollFile`
while the clock never steps back.  The index is a reading that no reading taken
so far exceeds. -/
inductive Reach (env : Env) : Int → LogFile → Prop
  | new (cwd : String) (clock : Int) (dir basename : String) (rollSize : Nat)
      (threadSafe : Bool) (s : LogFile) :
      LogFile.new env cwd clock dir basename rollSize threadSafe = some s →
      Reach env clock s
  | append (c : Int) (s : LogFile) (fuel : Nat) (fwrite : Nat → Nat → Nat)
      (clock : Nat → Int) (logline : List Char) (s1 : LogFile) :
      Reach env c s → c ≤ clock 0 → clock 0 ≤ clock 1 →
      s.append env fuel fwrite clock logline = some s1 →
      Reach env (clock 1) s1
  | flush (c : Int) (s s1 : LogFile) :
      Reach env c s → s.flush = some s1 → Reach env c s1
  | rollFile (c : Int) (s : LogFile) (clock : Int) :
      Reach env c s → c ≤ clock → Reach env clock (s.rollFile env clock)

/-- What holds of every reachable state: `lastRoll` is not negative,
`startOfPeriod` is the period start computed from `lastRoll`, and once a file is
current `lastRoll` is a positive reading that the clock has reached. -/
def LogFile.Inv (env : Env) (c : Int) (s : LogFile) : Prop :=
  0 ≤ s.lastRoll ∧
    s.startOfPeriod = Int.tdiv s.lastRoll env.kRollPerSeconds * env.kRollPerSeconds ∧
    (∀ f, s.file = some f → 0 < s.lastRoll ∧ s.lastRoll ≤ c)

/-! ## Example inputs -/

/-- A `localtime` for the examples: UTC, right for the readings of January 2024
(1704067200 is 2024-01-01 00:00:00). -/
def exampleLocaltime (t : Int) : Tm :=
  let r := t - 1704067200
  { tm_year := 124, tm_mon := 0, tm_mday := 1 + r / 86400, tm_hour := r / 3600 % 24,
    tm_min := r / 60 % 60, tm_sec := r % 60 }

/-- The environment of the examples: a 64-bit `size_t`, a period of one day,
process 1234. -/
def exampleEnv : Env :=
  { sizeBits := 64, kRollPerSeconds := 86400, localtime := exampleLocaltime, pid := 1234 }

/-- The writer `LogFile("/var/log/", "app", 4, false)` as constructed at
2024-01-02 03:04:05 (reading 1704164645). -/
def exampleState : LogFile :=
  { dir := "/var/log/", basename := "app", rollSize := 4, mutex := false,
    startOfPeriod := 1704153600, lastRoll := 1704164645,
    file := some (File.new "/var/log/app.20240102-030405.1234.log"), filesOpened := 1 }

/-- The calls of the example run on a `File`: three appends, one of them cut
short by `fwrite`, and a flush. -/
def exampleOps : List FileOp :=
  [.append fwriteAll "ab".data, .flush, .append (fwriteFirst 1) "cde".data,
   .append fwriteAll "f".data]

/-! ## The calls of `write` made by one `File::append` -/

/-- One call `write(logline + offset, requested)` of `File::append` and the count
it returned. -/
structure WriteCall where
  offset : Nat
  requested : Nat
  result : Nat
deriving DecidableEq, Repr

/-- The loop of `File::append` as in `File.appendLoop`, recording besides the
file and `n` every call of `write` the loop makes, in order. -/
def File.appendLoopCalls (w : Nat) (fwrite : Nat → Nat → Nat) (logline : List Char)
    (len : Nat) : Nat → Nat → File → Nat → Nat → Option (File × Nat × List WriteCall)
  | 0, _, f, n, remain => if remain > 0 then none else some (f, n, [])
  | fuel + 1, i, f, n, remain =>
    if remain > 0 then
      let r := File.write fwrite i f (logline.drop n) remain
      let c : WriteCall := { offset := n, requested := remain, result := r.1 }
      if r.1 = 0 then
        some (r.2, n, [c])
      else
        let n1 := addSize w n r.1
        match File.appendLoopCalls w fwrite logline len fuel (i + 1) r.2 n1
            (subSize w len n1) with
        | none => none
        | some (f2, n2, cs) => some (f2, n2, c :: cs)
    else some (f, n, [])

/-- The body of `File::append` as in `File.appendCore`, recording every call of
`write`: the one before the loop first. -/
def File.appendCalls (w fuel : Nat) (fwrite : Nat → Nat → Nat) (f : File)
    (logline : List Char) : Option (File × Nat × List WriteCall) :=
  let len := logline.length
  let r := File.write fwrite 0 f logline len
  let c : WriteCall := { offset := 0, requested := len, result := r.1 }
  let n := r.1
  let remain := subSize w len n
  match File.appendLoopCalls w fwrite logline len fuel 1 r.2 n remain with
  | none => none
  | some (f2, n2, cs) =>
    some ({ f2 with writtenBytes := addSize w f2.writtenBytes len }, n2, c :: cs)

/-- The re-issued calls `cs`, the first of them being call number `i` made when
`n` bytes are committed: each starts at the offset reached so far, which is below
`len`, requests the `len - offset` bytes that remain and returns what `fwrite`
answers to that request. -/
def Chained (fwrite : Nat → Nat → Nat) (len : Nat) : Nat → Nat → List WriteCall → Prop
  | _, _, [] => True
  | i, n, c :: cs =>
    c.offset = n ∧ c.requested = len - n ∧ n < len ∧ c.result = fwrite i c.requested ∧
      Chained fwrite len (i + 1) (n + c.result) cs

/-- The specification's count of committed bytes for a sequence of results: the
sum of the results before the first zero result. -/
def specCommitted (results : List Nat) : Nat :=
  (results.takeWhile (fun x => x ≠ 0)).sum

/-- An `fwrite` that accepts nothing in its first call and everything in the
second. -/
def fwriteSecond : Nat → Nat → Nat :=
  fun i len => if i = 0 then 0 else len

/-- An `fwrite` that accepts nothing in its first call and one byte in each
later call. -/
def fwriteSlow : Nat → Nat → Nat :=
  fun i len => if i = 0 then 0 else min 1 len

/-! ## Reachable states, whatever the clock reads -/

/-- The states reached from construction by `append`, `flush` and `rollFile`,
with no condition on the clock readings. -/
inductive Reachable (env : Env) : LogFile → Prop
  | new (cwd : String) (clock : Int) (dir basename : String) (rollSize : Nat)
      (threadSafe : Bool) (s : LogFile) :
      LogFile.new env cwd clock dir basename rollSize threadSafe = some s →
      Reachable env s
  | step (s : LogFile) (op : Op) (s1 : LogFile) :
      Reachable env s → s.step env op = some s1 → Reachable env s1

/-- The run of `k` calls `append("x", 1)` that all read the clock as `now`, with
an `fwrite` that accepts every byte. -/
def LogFile.appendBytes (env : Env) (now : Int) : Nat → LogFile → Option LogFile
  | 0, s => some s
  | k + 1, s =>
    match s.append env 1 fwriteAll (fun _ => now) ['x'] with
    | none => none
    | some s1 => LogFile.appendBytes env now k s1

/-! ## The specification of the directory normalisation -/

/-- The specification's rewriting of separators: every `\` replaced by `/`. -/
def specSlashes (p : List Char) : List Char :=
  p.map (fun c => if c = '\\' then '/' else c)

/-- The specification's normalisation: separators rewritten and one `/` appended
if the path does not already end with one. -/
def specNormalise (p : List Char) : List Char :=
  if (specSlashes p).getLast? = some '/' then specSlashes p else specSlashes p ++ ['/']

/-- The specification's result of `makePath`: `dir` normalised when it starts
with `/`, otherwise `cwd` joined to `dir` by one `/` and normalised. -/
def specMakePath (cwd dir : String) : String :=
  if dir.data.head? = some '/' then String.mk (specNormalise dir.data)
  else String.mk (specNormalise (cwd.data ++ ['/'] ++ dir.data))

/-! ## Construction against the answers of the file system -/

/-- What the file system answers during a construction: whether `mkdir(path)`
succeeds and whether `fopen(name, "a")` returns a stream. -/
structure FsAnswers where
  mkdir : String → Bool
  fopen : String → Bool

/-- How a construction ends. -/
inductive Built where
  /-- the constructor returns this writer -/
  | writer (s : LogFile)
  /-- the constructor of `File` got no stream from `fopen` and hands the null
  pointer to `setvbuf`, which is undefined; `s` holds the members as `rollFile`
  had assigned them before `new File(filename)` -/
  | nullStream (s : LogFile)
  /-- the run of `makePath` went past its buffer -/
  | overrun
deriving DecidableEq, Repr

/-- The run of `makePath` together with what each of its `mkdir` calls returned.
The source does not read these results. -/
def makePathIn (fs : FsAnswers) (cwd dir : String) : Option (String × List (String × Bool)) :=
  match makePath cwd dir with
  | none => none
  | some r => some (r.1, r.2.map (fun p => (p, fs.mkdir p)))

/-- The constructor `LogFile(dir, basename, rollSize, threadSafe)` run against
the answers `fs`: `makePath(_dir)`, then `rollFile()`, whose `new File(filename)`
calls `fopen` when the guard `now > _lastRoll` passes. -/
def LogFile.newIn (fs : FsAnswers) (env : Env) (cwd : String) (clock : Int)
    (dir basename : String) (rollSize : Nat) (threadSafe : Bool) : Built :=
  match makePathIn fs cwd dir with
  | none => .overrun
  | some r =>
    let s0 : LogFile :=
      { dir := r.1, basename := basename, rollSize := rollSize, mutex := threadSafe,
        startOfPeriod := 0, lastRoll := 0, file := none, filesOpened := 0 }
    let g := getLogFileName env s0.dir s0.basename clock
    let now := g.2
    let start := Int.tdiv now env.kRollPerSeconds * env.kRollPerSeconds
    if now > s0.lastRoll then
      if fs.fopen g.1 then .writer (s0.rollFile env clock)
      else .nullStream { s0 with lastRoll := now, startOfPeriod := start }
    else .writer (s0.rollFile env clock)

/-- Answers of a file system in which no directory can be created and no file
opened. -/
def fsNothing : FsAnswers := { mkdir := fun _ => false, fopen := fun _ => false }

/-- Answers of a file system in which every `mkdir` fails and every `fopen`
succeeds. -/
def fsNoMkdir : FsAnswers := { mkdir := fun _ => false, fopen := fun _ => true }

/-- Answers of a file system in which every call succeeds. -/
def fsAll : FsAnswers := { mkdir := fun _ => true, fopen := fun _ => true }

/-! ## Arithmetic on `size_t` without wrap-around -/

theorem subSize_of_le {w a b : Nat} (hb : b ≤ a) (ha : a < 2 ^ w) : subSize w a b = a - b := by
  unfold subSize
  generalize 2 ^ w = m at *
  have hb1 : b % m = b := Nat.mod_eq_of_lt (lt_of_le_of_lt hb ha)
  have h2 : a + m - b = (a - b) + m := by omega
  rw [hb1, h2, Nat.add_mod_right]
  exact Nat.mod_eq_of_lt (by omega)

theorem addSize_of_lt {w a b : Nat} (h : a + b < 2 ^ w) : addSize w a b = a + b := by
  unfold addSize
  exact Nat.mod_eq_of_lt h

/-! ## The retry loop of `File::append` -/

/-- With an `fwrite` that keeps to its contract the loop finishes within
`len - n` rounds; it leaves `n ≤ len`, has handed the bytes `n .. n'` of the
payload to the handle, and ends below `len` only after a call that made no
progress. -/
theorem File.appendLoop_spec (w : Nat) (fw : Nat → Nat → Nat) (hfw : FwriteOk fw)
    (logline : List Char) (len : Nat) (hlen : len < 2 ^ w) :
    ∀ (fuel i : Nat) (f : File) (n : Nat), n ≤ len → len - n ≤ fuel →
      ∃ f1 n1, File.appendLoop w fw logline len fuel i f n (len - n) = some (f1, n1) ∧
        n ≤ n1 ∧ n1 ≤ len ∧
        f1.handle = f.handle ++ (logline.drop n).take (n1 - n) ∧
        f1.writtenBytes = f.writtenBytes ∧ f1.filename = f.filename ∧
        f1.flushed = f.flushed ∧
        (n1 < len → ∃ j, i ≤ j ∧ fw j (len - n1) = 0) := by
  intro fuel
  induction fuel with
  | zero =>
    intro i f n hn hfuel
    have h0 : len - n = 0 := by omega
    refine ⟨f, n, ?_, le_refl n, hn, ?_, rfl, rfl, rfl, ?_⟩
    · simp [File.appendLoop, h0]
    · simp
    · intro h; omega
  | succ fuel ih =>
    intro i f n hn hfuel
    by_cases hr : len - n > 0
    · have hx : fw i (len - n) ≤ len - n := hfw i (len - n)
      by_cases hx0 : fw i (len - n) = 0
      · refine ⟨{ f with handle := f.handle ++ (logline.drop n).take (fw i (len - n)) }, n,
          ?_, le_refl n, hn, ?_, rfl, rfl, rfl, ?_⟩
        · simp [File.appendLoop, File.write, hr, hx0]
        · simp [hx0]
        · intro _; exact ⟨i, le_refl i, hx0⟩
      · have hsum : n + fw i (len - n) < 2 ^ w := by omega
        have hadd : addSize w n (fw i (len - n)) = n + fw i (len - n) := addSize_of_lt hsum
        have hsub : subSize w len (n + fw i (len - n)) = len - (n + fw i (len - n)) :=
          subSize_of_le (by omega) hlen
        obtain ⟨f1, n1, hrun, hle, hle2, hhandle, hwb, hname, hfl, hzero⟩ :=
          ih (i + 1) { f with handle := f.handle ++ (logline.drop n).take (fw i (len - n)) }
            (n + fw i (len - n)) (by omega) (by omega)
        refine ⟨f1, n1, ?_, by omega, hle2, ?_, hwb, hname, hfl, ?_⟩
        · simp only [File.appendLoop, File.write, hr, hx0, if_true, if_false, hadd, hsub]
          exact hrun
        · rw [hhandle]
          have hsplit : n1 - n = fw i (len - n) + (n1 - (n + fw i (len - n))) := by omega
          rw [hsplit, List.take_add, List.drop_drop, List.append_assoc]
        · intro h
          obtain ⟨j, hj, hj0⟩ := hzero h
          exact ⟨j, by omega, hj0⟩
    · have h0 : len - n = 0 := by omega
      refine ⟨f, n, ?_, le_refl n, hn, ?_, rfl, rfl, rfl, ?_⟩
      · simp [File.appendLoop, h0]
      · simp
      · intro h; omega

/-- The method `File::append` returns when `fwrite` keeps to its contract: the counter has
advanced by the whole length, the handle has received the first `k` bytes of the
payload, and `k` is below the length only after a call that made no progress. -/
theorem File.appendCore_spec (w fuel : Nat) (fw : Nat → Nat → Nat) (hfw : FwriteOk fw)
    (f : File) (logline : List Char) (hlen : logline.length < 2 ^ w)
    (hfuel : logline.length ≤ fuel) :
    ∃ f1 k, File.appendCore w fuel fw f logline = some (f1, k) ∧
      k ≤ logline.length ∧
      f1.handle = f.handle ++ logline.take k ∧
      f1.writtenBytes = addSize w f.writtenBytes logline.length ∧
      f1.filename = f.filename ∧ f1.flushed = f.flushed ∧
      (k < logline.length → ∃ j, 1 ≤ j ∧ fw j (logline.length - k) = 0) := by
  have hx : fw 0 logline.length ≤ logline.length := hfw 0 logline.length
  have hsub : subSize w logline.length (fw 0 logline.length)
      = logline.length - fw 0 logline.length := subSize_of_le hx hlen
  obtain ⟨f1, n1, hrun, hle, hle2, hhandle, hwb, hname, hfl, hzero⟩ :=
    File.appendLoop_spec w fw hfw logline logline.length hlen fuel 1
      { f with handle := f.handle ++ logline.take (fw 0 logline.length) }
      (fw 0 logline.length) hx (by omega)
  refine ⟨{ f1 with writtenBytes := addSize w f1.writtenBytes logline.length }, n1,
    ?_, hle2, ?_, ?_, hname, hfl, hzero⟩
  · simp only [File.appendCore, File.write, hsub, hrun]
  · show f1.handle = _
    rw [hhandle]
    have hsplit : n1 = fw 0 logline.length + (n1 - fw 0 logline.length) := by omega
    conv_rhs => rw [hsplit, List.take_add]
    simp [List.append_assoc]
  · show addSize w f1.writtenBytes _ = _
    rw [hwb]

/-- The method `File::append` returns when `fwrite` keeps to its contract. -/
theorem File.append_spec (w fuel : Nat) (fw : Nat → Nat → Nat) (hfw : FwriteOk fw)
    (f : File) (logline : List Char) (hlen : logline.length < 2 ^ w)
    (hfuel : logline.length ≤ fuel) :
    ∃ f1, File.append w fuel fw f logline = some f1 ∧
      f1.writtenBytes = addSize w f.writtenBytes logline.length ∧
      f1.filename = f.filename ∧ f1.flushed = f.flushed := by
  obtain ⟨f1, k, hrun, _, _, hwb, hname, hfl, _⟩ :=
    File.appendCore_spec w fuel fw hfw f logline hlen hfuel
  exact ⟨f1, by simp [File.append, hrun], hwb, hname, hfl⟩

/-- Whatever `fwrite` answers, a returning `File::append` has advanced the
counter by the whole length and kept the file's name. -/
theorem File.appendLoop_frame (w : Nat) (fw : Nat → Nat → Nat) (logline : List Char) (len : Nat) :
    ∀ (fuel i : Nat) (f : File) (n remain : Nat) (f1 : File) (n1 : Nat),
      File.appendLoop w fw logline len fuel i f n remain = some (f1, n1) →
        f1.writtenBytes = f.writtenBytes ∧ f1.filename = f.filename ∧ f1.flushed = f.flushed := by
  intro fuel
  induction fuel with
  | zero =>
    intro i f n remain f1 n1 h
    by_cases hr : remain > 0
    · simp [File.appendLoop, hr] at h
    · simp only [File.appendLoop, hr, if_false, Option.some.injEq, Prod.mk.injEq] at h
      obtain ⟨rfl, _⟩ := h
      exact ⟨rfl, rfl, rfl⟩
  | succ fuel ih =>
    intro i f n remain f1 n1 h
    by_cases hr : remain > 0
    · by_cases hx0 : fw i remain = 0
      · simp only [File.appendLoop, File.write, hr, hx0, if_true, Option.some.injEq,
          Prod.mk.injEq] at h
        obtain ⟨rfl, _⟩ := h
        exact ⟨rfl, rfl, rfl⟩
      · simp only [File.appendLoop, File.write, hr, hx0, if_true, if_false] at h
        obtain ⟨h1, h2, h3⟩ := ih _ _ _ _ _ _ h
        exact ⟨h1, h2, h3⟩
    · simp only [File.appendLoop, hr, if_false, Option.some.injEq, Prod.mk.injEq] at h
      obtain ⟨rfl, _⟩ := h
      exact ⟨rfl, rfl, rfl⟩

theorem File.append_frame (w fuel : Nat) (fw : Nat → Nat → Nat) (f : File)
    (logline : List Char) (f1 : File) (h : File.append w fuel fw f logline = some f1) :
    f1.writtenBytes = addSize w f.writtenBytes logline.length ∧
      f1.filename = f.filename ∧ f1.flushed = f.flushed := by
  unfold File.append File.appendCore at h
  simp only [File.write] at h
  cases hl : File.appendLoop w fw logline logline.length fuel 1
      { f with handle := f.handle ++ logline.take (fw 0 logline.length) }
      (fw 0 logline.length) (subSize w logline.length (fw 0 logline.length)) with
  | none => simp [hl] at h
  | some r =>
    obtain ⟨f2, n2⟩ := r
    simp only [hl, Option.map_some', Option.some.injEq] at h
    obtain ⟨hwb, hname, hfl⟩ := File.appendLoop_frame w fw logline _ _ _ _ _ _ _ _ hl
    subst h
    exact ⟨by simp [hwb], hname, hfl⟩

/-! ## Claims about `LogFile::File` -/

theorem File.run_writtenBytes (w fuel : Nat) :
    ∀ (ops : List FileOp) (f : File), (∀ op ∈ ops, op.Ok fuel) →
      (∀ op ∈ ops, op.len < 2 ^ w) →
      f.writtenBytes + (ops.map FileOp.len).sum < 2 ^ w →
      ∃ f1, File.run w fuel f ops = some f1 ∧
        f1.writtenBytes = f.writtenBytes + (ops.map FileOp.len).sum := by
  intro ops
  induction ops with
  | nil => intro f _ _ _; exact ⟨f, rfl, by simp⟩
  | cons op ops ih =>
    intro f hok hlen hsum
    have hok1 := hok op (List.mem_cons_self _ _)
    have hlen1 := hlen op (List.mem_cons_self _ _)
    have hokr : ∀ o ∈ ops, o.Ok fuel := fun o ho => hok o (List.mem_cons_of_mem _ ho)
    have hlenr : ∀ o ∈ ops, o.len < 2 ^ w := fun o ho => hlen o (List.mem_cons_of_mem _ ho)
    simp only [List.map_cons, List.sum_cons] at hsum ⊢
    cases op with
    | append fw logline =>
      obtain ⟨f1, hrun, hwb, _, _⟩ :=
        File.append_spec w fuel fw hok1.1 f logline hlen1 hok1.2
      have hwb1 : f1.writtenBytes = f.writtenBytes + logline.length := by
        rw [hwb]; exact addSize_of_lt (by simp only [FileOp.len] at hsum; omega)
      obtain ⟨f2, hrun2, hwb2⟩ := ih f1 hokr hlenr (by
        rw [hwb1]; simp only [FileOp.len] at hsum; omega)
      refine ⟨f2, ?_, ?_⟩
      · simp only [File.run, File.step, hrun]; exact hrun2
      · rw [hwb2, hwb1]; simp only [FileOp.len]; omega
    | flush =>
      obtain ⟨f2, hrun2, hwb2⟩ := ih f.flush hokr hlenr (by
        simp only [FileOp.len] at hsum; simpa [File.flush] using hsum)
      refine ⟨f2, ?_, ?_⟩
      · simp only [File.run, File.step]; exact hrun2
      · rw [hwb2]; simp [File.flush, FileOp.len]

/-- C4. On a newly created `File` (counter 0) every finite sequence of `append`
and `flush` calls whose `fwrite` keeps to its contract runs to the end, and the
counter then equals the sum of the lengths of the appended payloads, provided
that sum is below `2 ^ w`; `flush` alone never changes the counter. -/
theorem File.writtenBytes_eq_sum (w fuel : Nat) (f : File) (ops : List FileOp)
    (hnew : f.writtenBytes = 0) (hok : ∀ op ∈ ops, op.Ok fuel)
    (hsum : (ops.map FileOp.len).sum < 2 ^ w) :
    (∃ f1, File.run w fuel f ops = some f1 ∧
        f1.writtenBytes = (ops.map FileOp.len).sum) ∧
      (∀ g : File, g.flush.writtenBytes = g.writtenBytes) := by
  constructor
  · have hlen : ∀ op ∈ ops, op.len < 2 ^ w := by
      intro op hop
      have := List.single_le_sum (l := ops.map FileOp.len) (fun x _ => Nat.zero_le x)
        op.len (List.mem_map_of_mem _ hop)
      omega
    obtain ⟨f1, hrun, hwb⟩ := File.run_writtenBytes w fuel ops f hok hlen (by omega)
    exact ⟨f1, hrun, by omega⟩
  · intro g; rfl

theorem fwriteAll_ok : FwriteOk fwriteAll := fun _ _ => le_refl _

theorem fwriteNone_ok : FwriteOk fwriteNone := fun _ len => Nat.zero_le len

theorem fwriteFirst_ok (k : Nat) : FwriteOk (fwriteFirst k) := by
  intro i len
  unfold fwriteFirst
  split <;> omega

theorem exampleOps_ok : ∀ op ∈ exampleOps, op.Ok 8 := by
  intro op hop
  simp only [exampleOps, List.mem_cons, List.mem_singleton, List.not_mem_nil, or_false] at hop
  rcases hop with rfl | rfl | rfl | rfl
  · exact ⟨fwriteAll_ok, by decide⟩
  · trivial
  · exact ⟨fwriteFirst_ok 1, by decide⟩
  · exact ⟨fwriteAll_ok, by decide⟩

/-- C4 at the example run on a new file: the counter ends at 2 + 3 + 1. -/
theorem File.writtenBytes_eq_sum_witness :
    (File.new "a.log").writtenBytes = 0 ∧ (exampleOps.map FileOp.len).sum = 6 ∧
      ((∃ f1, File.run 64 8 (File.new "a.log") exampleOps = some f1 ∧
          f1.writtenBytes = (exampleOps.map FileOp.len).sum) ∧
        (∀ g : File, g.flush.writtenBytes = g.writtenBytes)) :=
  ⟨rfl, by decide,
    File.writtenBytes_eq_sum 64 8 (File.new "a.log") exampleOps rfl exampleOps_ok (by decide)⟩

/-- C10. For every `File`, every payload and every `fwrite` that returns between
0 and the number of bytes requested, `File::append` returns with the counter
advanced by the whole length `len` modulo `2 ^ w`, while the handle has received
only the first `k ≤ len` bytes; so the counter's step exceeds the bytes
committed by `len - k`, and `k < len` happens only after a call that made no
progress. -/
theorem File.append_counts_submitted (w fuel : Nat) (fw : Nat → Nat → Nat)
    (hfw : FwriteOk fw) (f : File) (logline : List Char)
    (hlen : logline.length < 2 ^ w) (hfuel : logline.length ≤ fuel) :
    ∃ f1 k, File.appendCore w fuel fw f logline = some (f1, k) ∧
      File.append w fuel fw f logline = some f1 ∧
      f1.writtenBytes = (f.writtenBytes + logline.length) % 2 ^ w ∧
      k ≤ logline.length ∧
      f1.handle = f.handle ++ logline.take k ∧
      f1.handle.length = f.handle.length + k ∧
      logline.length - (f1.handle.length - f.handle.length) = logline.length - k ∧
      (k < logline.length → ∃ j, 1 ≤ j ∧ fw j (logline.length - k) = 0) := by
  obtain ⟨f1, k, hrun, hk, hhandle, hwb, _, _, hzero⟩ :=
    File.appendCore_spec w fuel fw hfw f logline hlen hfuel
  have hl : f1.handle.length = f.handle.length + k := by
    rw [hhandle, List.length_append, List.length_take]; omega
  refine ⟨f1, k, hrun, by simp [File.append, hrun], hwb, hk, hhandle, hl, by omega, hzero⟩

/-- C10 where `fwrite` takes 2 of 5 bytes and then nothing: the counter reads 5,
the handle holds 2 bytes. -/
theorem File.append_counts_submitted_witness :
    File.append 64 8 (fwriteFirst 2) (File.new "a.log") "hello".data
        = some { filename := "a.log", handle := "he".data, flushed := 0, writtenBytes := 5 } ∧
      ∃ f1 k, File.appendCore 64 8 (fwriteFirst 2) (File.new "a.log") "hello".data = some (f1, k) ∧
        File.append 64 8 (fwriteFirst 2) (File.new "a.log") "hello".data = some f1 ∧
        f1.writtenBytes = ((File.new "a.log").writtenBytes + "hello".data.length) % 2 ^ 64 ∧
        k ≤ "hello".data.length ∧
        f1.handle = (File.new "a.log").handle ++ "hello".data.take k ∧
        f1.handle.length = (File.new "a.log").handle.length + k ∧
        "hello".data.length - (f1.handle.length - (File.new "a.log").handle.length)
          = "hello".data.length - k ∧
        (k < "hello".data.length →
          ∃ j, 1 ≤ j ∧ fwriteFirst 2 j ("hello".data.length - k) = 0) :=
  ⟨by decide,
    File.append_counts_submitted 64 8 (fwriteFirst 2) (fwriteFirst_ok 2) (File.new "a.log")
      "hello".data (by decide) (by decide)⟩

/-- C9 at the failing input.  `fwrite` accepts nothing of the payload "hello":
`File::append` returns, as it does when everything is accepted, with the same
counter and name; the two results differ only in the bytes that reached the
handle, and `LogFile::append` likewise leaves the same writer apart from those
bytes and the count of them that `flush` forced out. -/
theorem File.append_write_failure_silent :
    File.append 64 8 fwriteNone (File.new "a.log") "hello".data
        = some { filename := "a.log", handle := [], flushed := 0, writtenBytes := 5 } ∧
      File.append 64 8 fwriteAll (File.new "a.log") "hello".data
        = some { filename := "a.log", handle := "hello".data, flushed := 0, writtenBytes := 5 } ∧
      LogFile.append exampleEnv 8 fwriteNone (fun _ => 1704164645)
          { exampleState with rollSize := 1024 } "hello".data
        = some { exampleState with
            rollSize := 1024
            file := some { filename := "/var/log/app.20240102-030405.1234.log", handle := [],
                           flushed := 0, writtenBytes := 5 } } ∧
      LogFile.append exampleEnv 8 fwriteAll (fun _ => 1704164645)
          { exampleState with rollSize := 1024 } "hello".data
        = some { exampleState with
            rollSize := 1024
            file := some { filename := "/var/log/app.20240102-030405.1234.log",
                           handle := "hello".data, flushed := 5, writtenBytes := 5 } } := by
  refine ⟨by decide, by decide, by decide, by decide⟩

/-! ## File names -/

theorem toDigitsCore_step (fuel n : Nat) (ds : List Char) :
    Nat.toDigitsCore 10 (fuel + 1) n ds =
      if n / 10 = 0 then Nat.digitChar (n % 10) :: ds
      else Nat.toDigitsCore 10 fuel (n / 10) (Nat.digitChar (n % 10) :: ds) := by
  simp [Nat.toDigitsCore]

theorem toString_one_digit (n : Nat) (h : n < 10) :
    toString n = String.mk [Nat.digitChar (n % 10)] := by
  show String.mk (Nat.toDigitsCore 10 (n + 1) n []) = _
  have h0 : n / 10 = 0 := by omega
  rw [toDigitsCore_step, if_pos h0]

theorem toString_two_digits (n : Nat) (h1 : 10 ≤ n) (h2 : n < 100) :
    toString n = String.mk (digits2 n) := by
  show String.mk (Nat.toDigitsCore 10 (n + 1) n []) = _
  have hf : n + 1 = (n - 1) + 1 + 1 := by omega
  have h0 : ¬ n / 10 = 0 := by omega
  have h00 : n / 10 / 10 = 0 := by omega
  rw [hf, toDigitsCore_step, if_neg h0, toDigitsCore_step, if_pos h00]
  rfl

theorem toString_four_digits (n : Nat) (h1 : 1000 ≤ n) (h2 : n < 10000) :
    toString n = String.mk (digits4 n) := by
  show String.mk (Nat.toDigitsCore 10 (n + 1) n []) = _
  have hf : n + 1 = (n - 3) + 1 + 1 + 1 + 1 := by omega
  have ha : ¬ n / 10 = 0 := by omega
  have hb : ¬ n / 10 / 10 = 0 := by omega
  have hc : ¬ n / 10 / 10 / 10 = 0 := by omega
  have hd : n / 10 / 10 / 10 / 10 = 0 := by omega
  rw [hf, toDigitsCore_step, if_neg ha, toDigitsCore_step, if_neg hb, toDigitsCore_step,
    if_neg hc, toDigitsCore_step, if_pos hd]
  have e2 : n / 10 / 10 = n / 100 := by omega
  have e3 : n / 10 / 10 / 10 = n / 1000 := by omega
  rw [e3, e2]
  rfl

/-- A two-digit `strftime` field within `0 .. 99` is the specification's
zero-padded field. -/
theorem fmt02_eq_digits2 (v : Int) (h0 : 0 ≤ v) (h1 : v < 100) :
    fmt02 v = String.mk (digits2 v.toNat) := by
  obtain ⟨n, rfl⟩ := Int.eq_ofNat_of_zero_le h0
  have hn : n < 100 := by omega
  simp only [Int.toNat_ofNat]
  unfold fmt02
  by_cases hs : n < 10
  · have hc : (0 : Int) ≤ (n : Int) ∧ (n : Int) < 10 := ⟨h0, by omega⟩
    rw [if_pos hc]
    show "0" ++ toString n = _
    rw [toString_one_digit n hs]
    have hz : n / 10 % 10 = 0 := by omega
    simp only [digits2, hz]
    rfl
  · have hc : ¬ ((0 : Int) ≤ (n : Int) ∧ (n : Int) < 10) := by omega
    rw [if_neg hc]
    show toString n = _
    exact toString_two_digits n (by omega) hn

/-- A year within `1000 .. 9999` printed by `%Y` is the specification's
four-digit field. -/
theorem fmtInt_eq_digits4 (v : Int) (h0 : 1000 ≤ v) (h1 : v ≤ 9999) :
    fmtInt v = String.mk (digits4 v.toNat) := by
  obtain ⟨n, rfl⟩ := Int.eq_ofNat_of_zero_le (by omega : (0 : Int) ≤ v)
  simp only [Int.toNat_ofNat]
  show toString n = _
  exact toString_four_digits n (by omega) (by omega)

/-- On a valid broken-down time `strftime` writes the specification's
timestamp after the dot. -/
theorem strftimeStamp_eq_spec (t : Tm) (h : TmValid t) :
    strftimeStamp t = "." ++ specTimestamp (t.tm_year + 1900).toNat (t.tm_mon + 1).toNat
      t.tm_mday.toNat t.tm_hour.toNat t.tm_min.toNat t.tm_sec.toNat := by
  obtain ⟨hy0, hy1, hm0, hm1, hd0, hd1, hh0, hh1, hi0, hi1, hs0, hs1⟩ := h
  unfold strftimeStamp specTimestamp
  rw [fmtInt_eq_digits4 _ hy0 hy1, fmt02_eq_digits2 (t.tm_mon + 1) (by omega) (by omega),
    fmt02_eq_digits2 t.tm_mday (by omega) (by omega),
    fmt02_eq_digits2 t.tm_hour (by omega) (by omega),
    fmt02_eq_digits2 t.tm_min (by omega) (by omega),
    fmt02_eq_digits2 t.tm_sec (by omega) (by omega)]
  apply String.ext
  simp [String.data_append]

theorem digitChar_inj (a b : Nat) (ha : a < 10) (hb : b < 10)
    (h : Nat.digitChar a = Nat.digitChar b) : a = b := by
  have key : ∀ x : Fin 10, ∀ y : Fin 10, Nat.digitChar x = Nat.digitChar y → x = y := by decide
  have := key ⟨a, ha⟩ ⟨b, hb⟩ h
  exact Fin.mk.inj_iff.mp this

theorem digits2_inj (a b : Nat) (ha : a < 100) (hb : b < 100) (h : digits2 a = digits2 b) :
    a = b := by
  simp only [digits2, List.cons.injEq, and_true] at h
  have h1 := digitChar_inj _ _ (Nat.mod_lt _ (by decide)) (Nat.mod_lt _ (by decide)) h.1
  have h2 := digitChar_inj _ _ (Nat.mod_lt _ (by decide)) (Nat.mod_lt _ (by decide)) h.2
  omega

theorem digits4_inj (a b : Nat) (ha : a < 10000) (hb : b < 10000) (h : digits4 a = digits4 b) :
    a = b := by
  simp only [digits4, List.cons.injEq, and_true] at h
  have h1 := digitChar_inj _ _ (Nat.mod_lt _ (by decide)) (Nat.mod_lt _ (by decide)) h.1
  have h2 := digitChar_inj _ _ (Nat.mod_lt _ (by decide)) (Nat.mod_lt _ (by decide)) h.2.1
  have h3 := digitChar_inj _ _ (Nat.mod_lt _ (by decide)) (Nat.mod_lt _ (by decide)) h.2.2.1
  have h4 := digitChar_inj _ _ (Nat.mod_lt _ (by decide)) (Nat.mod_lt _ (by decide)) h.2.2.2
  omega

/-- Two valid broken-down times with the same `strftime` rendering are equal. -/
theorem strftimeStamp_inj (t1 t2 : Tm) (h1 : TmValid t1) (h2 : TmValid t2)
    (h : strftimeStamp t1 = strftimeStamp t2) : t1 = t2 := by
  rw [strftimeStamp_eq_spec t1 h1, strftimeStamp_eq_spec t2 h2] at h
  have hd := congrArg String.data h
  simp only [String.data_append, specTimestamp] at hd
  have hd := List.append_cancel_left hd
  obtain ⟨hy0, hy1, hm0, hm1, hd0, hd1, hh0, hh1, hi0, hi1, hs0, hs1⟩ := h1
  obtain ⟨gy0, gy1, gm0, gm1, gd0, gd1, gh0, gh1, gi0, gi1, gs0, gs1⟩ := h2
  simp only [List.append_assoc] at hd
  obtain ⟨e1, hd⟩ := List.append_inj hd rfl
  obtain ⟨e2, hd⟩ := List.append_inj hd rfl
  obtain ⟨e3, hd⟩ := List.append_inj hd rfl
  obtain ⟨_, hd⟩ := List.append_inj hd rfl
  obtain ⟨e4, hd⟩ := List.append_inj hd rfl
  obtain ⟨e5, e6⟩ := List.append_inj hd rfl
  have f1 := digits4_inj _ _ (by omega) (by omega) e1
  have f2 := digits2_inj _ _ (by omega) (by omega) e2
  have f3 := digits2_inj _ _ (by omega) (by omega) e3
  have f4 := digits2_inj _ _ (by omega) (by omega) e4
  have f5 := digits2_inj _ _ (by omega) (by omega) e5
  have f6 := digits2_inj _ _ (by omega) (by omega) e6
  cases t1
  cases t2
  simp only [Tm.mk.injEq]
  simp only at f1 f2 f3 f4 f5 f6 hy0 hm0 hd0 hh0 hi0 hs0 gy0 gm0 gd0 gh0 gi0 gs0
  refine ⟨by omega, by omega, by omega, by omega, by omega, by omega⟩

/-- Names built by `getLogFileName` for the same directory, base name and process
agree only when the two renderings of the time agree. -/
theorem getLogFileName_stamp_eq (env : Env) (dir basename : String) (c1 c2 : Int)
    (h : (getLogFileName env dir basename c1).1 = (getLogFileName env dir basename c2).1) :
    strftimeStamp (env.localtime c1) = strftimeStamp (env.localtime c2) := by
  simp only [getLogFileName] at h
  have hd := congrArg String.data h
  simp only [String.data_append] at hd
  have hd := List.append_cancel_right hd
  have hd := List.append_cancel_right hd
  have hd := List.append_cancel_left hd
  exact String.ext hd

/-- C5. For every directory, base name, process id and every broken-down local
time with a four-digit year and fields in their `struct tm` ranges,
`getLogFileName` returns exactly
`dir ++ basename ++ "." ++ YYYYMMDD-HHMMSS ++ "." ++ decimal(pid) ++ ".log"`
with the fields zero-padded to 4/2/2 and 2/2/2 digits, and stores the clock
reading it used in `*now`; directory "/var/log/", base name "app", time
2024-01-02 03:04:05 and process 1234 give
"/var/log/app.20240102-030405.1234.log". -/
theorem getLogFileName_format (env : Env) (dir basename : String) (clock : Int) (t : Tm)
    (ht : env.localtime clock = t) (hvalid : TmValid t) :
    getLogFileName env dir basename clock =
        (specLogFileName dir basename (t.tm_year + 1900).toNat (t.tm_mon + 1).toNat
          t.tm_mday.toNat t.tm_hour.toNat t.tm_min.toNat t.tm_sec.toNat env.pid, clock) ∧
      (env.pid = 1234 → t = ⟨124, 0, 2, 3, 4, 5⟩ →
        getLogFileName env "/var/log/" "app" clock
          = ("/var/log/app.20240102-030405.1234.log", clock)) := by
  constructor
  · simp only [getLogFileName, ht, strftimeStamp_eq_spec t hvalid, specLogFileName, fmtInt,
      Prod.mk.injEq, and_true]
    apply String.ext
    simp [String.data_append]
  · intro hpid htm
    subst htm
    simp only [getLogFileName, ht, hpid, Prod.mk.injEq, and_true]
    decide

/-- C5 at the reading 1704164645 of the example environment, which is
2024-01-02 03:04:05. -/
theorem getLogFileName_format_witness :
    exampleEnv.localtime 1704164645 = ⟨124, 0, 2, 3, 4, 5⟩ ∧
      TmValid ⟨124, 0, 2, 3, 4, 5⟩ ∧
      specLogFileName "/var/log/" "app" 2024 1 2 3 4 5 1234
        = "/var/log/app.20240102-030405.1234.log" ∧
      getLogFileName exampleEnv "/var/log/" "app" 1704164645
        = ("/var/log/app.20240102-030405.1234.log", 1704164645) :=
  ⟨by decide, by decide, by decide,
    (getLogFileName_format exampleEnv "/var/log/" "app" 1704164645 ⟨124, 0, 2, 3, 4, 5⟩
      (by decide) (by decide)).2 rfl rfl⟩

/-! ## `LogFile::rollFile` -/

theorem LogFile.rollFile_commit (env : Env) (s : LogFile) (now : Int) (h : s.lastRoll < now) :
    s.rollFile env now =
      { s with lastRoll := now
               startOfPeriod := Int.tdiv now env.kRollPerSeconds * env.kRollPerSeconds
               file := some (File.new (getLogFileName env s.dir s.basename now).1)
               filesOpened := s.filesOpened + 1 } := by
  simp [LogFile.rollFile, getLogFileName, h]

theorem LogFile.rollFile_skip (env : Env) (s : LogFile) (now : Int) (h : now ≤ s.lastRoll) :
    s.rollFile env now = s := by
  have h1 : ¬ s.lastRoll < now := not_lt.mpr h
  simp [LogFile.rollFile, getLogFileName, h1]

/-- What `rollFile` does to the members the claims speak of, in either case. -/
theorem LogFile.rollFile_effect (env : Env) (s : LogFile) (now : Int) :
    s.lastRoll ≤ (s.rollFile env now).lastRoll ∧
      ((s.rollFile env now).filesOpened = s.filesOpened + 1 ↔
        s.lastRoll < (s.rollFile env now).lastRoll) ∧
      (¬ s.lastRoll < (s.rollFile env now).lastRoll → s.rollFile env now = s) := by
  by_cases h : s.lastRoll < now
  · rw [LogFile.rollFile_commit env s now h]
    exact ⟨le_of_lt h, ⟨fun _ => h, fun _ => rfl⟩, fun hn => absurd h hn⟩
  · rw [LogFile.rollFile_skip env s now (not_lt.mp h)]
    exact ⟨le_refl _, ⟨fun hc => by omega, fun hc => absurd hc (lt_irrefl _)⟩, fun _ => rfl⟩

/-- C6. When the reading `now` of `rollFile` is not later than `lastRoll`, the
call leaves the whole writer as it was: `lastRoll`, `startOfPeriod` and the
current file with its counter. -/
theorem LogFile.rollFile_guard_noop (env : Env) (s : LogFile) (now : Int)
    (h : now ≤ s.lastRoll) :
    s.rollFile env now = s ∧
      (s.rollFile env now).lastRoll = s.lastRoll ∧
      (s.rollFile env now).startOfPeriod = s.startOfPeriod ∧
      (s.rollFile env now).file = s.file := by
  rw [LogFile.rollFile_skip env s now h]
  exact ⟨rfl, rfl, rfl, rfl⟩

/-- C6 for a clock that stepped back by 45 seconds. -/
theorem LogFile.rollFile_guard_noop_witness :
    (1704164600 : Int) ≤ exampleState.lastRoll ∧
      exampleState.rollFile exampleEnv 1704164600 = exampleState ∧
      (exampleState.rollFile exampleEnv 1704164600).lastRoll = exampleState.lastRoll ∧
      (exampleState.rollFile exampleEnv 1704164600).startOfPeriod
        = exampleState.startOfPeriod ∧
      (exampleState.rollFile exampleEnv 1704164600).file = exampleState.file :=
  ⟨by decide, LogFile.rollFile_guard_noop exampleEnv exampleState 1704164600 (by decide)⟩

/-- C2 fails as stated: two `rollFile` calls that both read 1704164600, which is
not later than `lastRoll`, commit no roll at all; the first one installs no
file and does not set `lastRoll` to the reading. -/
theorem LogFile.rollFile_twice_counterexample :
    (exampleState.rollFile exampleEnv 1704164600).lastRoll ≠ 1704164600 ∧
      (exampleState.rollFile exampleEnv 1704164600).filesOpened = exampleState.filesOpened ∧
      (exampleState.rollFile exampleEnv 1704164600).file = exampleState.file ∧
      ((exampleState.rollFile exampleEnv 1704164600).rollFile exampleEnv 1704164600)
        = exampleState := by
  decide

/-- C2, amended. Two consecutive `rollFile` calls that read the same `now` never
commit more than one roll: the second always leaves the writer as the first left
it.  When `now` is later than `lastRoll` they commit exactly one: the first
installs a new file with counter 0 and sets `lastRoll = now`. -/
theorem LogFile.rollFile_twice (env : Env) (s : LogFile) (now : Int) :
    (s.rollFile env now).rollFile env now = s.rollFile env now ∧
      (s.lastRoll < now →
        (s.rollFile env now).lastRoll = now ∧
        (s.rollFile env now).file
          = some (File.new (getLogFileName env s.dir s.basename now).1) ∧
        (s.rollFile env now).filesOpened = s.filesOpened + 1 ∧
        ((s.rollFile env now).rollFile env now).filesOpened = s.filesOpened + 1) := by
  have hsecond : (s.rollFile env now).rollFile env now = s.rollFile env now := by
    by_cases h : s.lastRoll < now
    · apply LogFile.rollFile_skip
      rw [LogFile.rollFile_commit env s now h]
    · rw [LogFile.rollFile_skip env s now (not_lt.mp h)]
      exact LogFile.rollFile_skip env s now (not_lt.mp h)
  refine ⟨hsecond, fun h => ?_⟩
  rw [hsecond, LogFile.rollFile_commit env s now h]
  exact ⟨rfl, rfl, rfl, rfl⟩

/-- C2, amended, at a reading 5 seconds after the last roll. -/
theorem LogFile.rollFile_twice_witness :
    exampleState.lastRoll < 1704164650 ∧
      (exampleState.rollFile exampleEnv 1704164650).lastRoll = 1704164650 ∧
      (exampleState.rollFile exampleEnv 1704164650).file
        = some (File.new (getLogFileName exampleEnv exampleState.dir exampleState.basename
            1704164650).1) ∧
      (exampleState.rollFile exampleEnv 1704164650).filesOpened
        = exampleState.filesOpened + 1 ∧
      ((exampleState.rollFile exampleEnv 1704164650).rollFile exampleEnv 1704164650).filesOpened
        = exampleState.filesOpened + 1 :=
  ⟨by decide, (LogFile.rollFile_twice exampleEnv exampleState 1704164650).2 (by decide)⟩

/-! ## `LogFile::append`, `LogFile::flush` and the constructor -/

/-- The three ways `append_unlocked` can end. -/
theorem LogFile.append_unlocked_cases (env : Env) (fuel : Nat) (fw : Nat → Nat → Nat)
    (clock : Nat → Int) (s : LogFile) (logline : List Char) (s1 : LogFile)
    (h : s.append_unlocked env fuel fw clock logline = some s1) :
    ∃ f f1, s.file = some f ∧ f.append env.sizeBits fuel fw logline = some f1 ∧
      (s1 = ({ s with file := some f1 } : LogFile).rollFile env (clock 0) ∨
        s1 = ({ s with file := some f1 } : LogFile).rollFile env (clock 1) ∨
        s1 = { s with file := some f1.flush }) := by
  unfold LogFile.append_unlocked at h
  cases hf : s.file with
  | none => simp [hf] at h
  | some f =>
    cases ha : f.append env.sizeBits fuel fw logline with
    | none => simp [hf, ha] at h
    | some f1 =>
      refine ⟨f, f1, rfl, ha, ?_⟩
      simp only [hf, ha] at h
      split at h
      · left; exact (Option.some.inj h).symm
      · split at h
        · right; left; exact (Option.some.inj h).symm
        · right; right; exact (Option.some.inj h).symm

theorem LogFile.append_eq (env : Env) (fuel : Nat) (fw : Nat → Nat → Nat)
    (clock : Nat → Int) (s : LogFile) (logline : List Char) :
    s.append env fuel fw clock logline = s.append_unlocked env fuel fw clock logline := by
  unfold LogFile.append
  split <;> rfl

/-- C7. Every call of `append`, `flush` or `rollFile` that returns leaves
`lastRoll` at least as large as it was, and it replaces the current file (runs
`_file.reset(new File(..))`) exactly when `lastRoll` has strictly increased;
otherwise the current file keeps its name and `startOfPeriod` its value. -/
theorem LogFile.lastRoll_monotone (env : Env) (s : LogFile) (op : Op) (s1 : LogFile)
    (h : s.step env op = some s1) :
    s.lastRoll ≤ s1.lastRoll ∧
      (s1.filesOpened = s.filesOpened + 1 ↔ s.lastRoll < s1.lastRoll) ∧
      (s.lastRoll < s1.lastRoll → ∃ name, s1.file = some (File.new name)) ∧
      (¬ s.lastRoll < s1.lastRoll →
        s1.filesOpened = s.filesOpened ∧ s1.startOfPeriod = s.startOfPeriod ∧
        s1.file.map File.filename = s.file.map File.filename) := by
  have hroll : ∀ (t : LogFile) (now : Int),
      t.lastRoll ≤ (t.rollFile env now).lastRoll ∧
      ((t.rollFile env now).filesOpened = t.filesOpened + 1 ↔
        t.lastRoll < (t.rollFile env now).lastRoll) ∧
      (t.lastRoll < (t.rollFile env now).lastRoll →
        ∃ name, (t.rollFile env now).file = some (File.new name)) ∧
      (¬ t.lastRoll < (t.rollFile env now).lastRoll →
        (t.rollFile env now).filesOpened = t.filesOpened ∧
        (t.rollFile env now).startOfPeriod = t.startOfPeriod ∧
        (t.rollFile env now).file.map File.filename = t.file.map File.filename) := by
    intro t now
    obtain ⟨h1, h2, h3⟩ := LogFile.rollFile_effect env t now
    refine ⟨h1, h2, fun hlt => ?_, fun hn => by rw [h3 hn]; exact ⟨rfl, rfl, rfl⟩⟩
    by_cases hc : t.lastRoll < now
    · rw [LogFile.rollFile_commit env t now hc]; exact ⟨_, rfl⟩
    · rw [LogFile.rollFile_skip env t now (not_lt.mp hc)] at hlt
      exact absurd hlt (lt_irrefl _)
  cases op with
  | append fuel fw clock logline =>
    simp only [LogFile.step, LogFile.append_eq] at h
    obtain ⟨f, f1, hf, ha, hcase⟩ :=
      LogFile.append_unlocked_cases env fuel fw clock s logline s1 h
    obtain ⟨_, hname, _⟩ := File.append_frame env.sizeBits fuel fw f logline f1 ha
    have hmap : (some f1).map File.filename = s.file.map File.filename := by
      rw [hf]; simp [hname]
    rcases hcase with rfl | rfl | rfl
    · obtain ⟨h1, h2, h3, h4⟩ := hroll { s with file := some f1 } (clock 0)
      exact ⟨h1, h2, h3, fun hn => ⟨(h4 hn).1, (h4 hn).2.1, (h4 hn).2.2.trans hmap⟩⟩
    · obtain ⟨h1, h2, h3, h4⟩ := hroll { s with file := some f1 } (clock 1)
      exact ⟨h1, h2, h3, fun hn => ⟨(h4 hn).1, (h4 hn).2.1, (h4 hn).2.2.trans hmap⟩⟩
    · refine ⟨le_refl _, ⟨fun hc => ?_, fun hc => absurd hc (lt_irrefl _)⟩,
        fun hc => absurd hc (lt_irrefl _), fun _ => ⟨rfl, rfl, ?_⟩⟩
      · simp at hc
      · rw [← hmap]; rfl
  | flush =>
    simp only [LogFile.step, LogFile.flush] at h
    cases hf : s.file with
    | none => simp [hf] at h
    | some f =>
      simp only [hf, Option.some.injEq] at h
      subst h
      refine ⟨le_refl _, ⟨fun hc => ?_, fun hc => absurd hc (lt_irrefl _)⟩,
        fun hc => absurd hc (lt_irrefl _), fun _ => ⟨rfl, rfl, ?_⟩⟩
      · simp at hc
      · simp [File.flush]
  | rollFile clock =>
    simp only [LogFile.step, Option.some.injEq] at h
    subst h
    exact hroll s clock

/-- C7 for an append of 5 bytes over the threshold of 4, five seconds after the
last roll: `lastRoll` moves on and the file is replaced. -/
theorem LogFile.lastRoll_monotone_witness :
    exampleState.step exampleEnv (.append 8 fwriteAll (fun _ => 1704164650) "hello".data)
        = some { exampleState with
            lastRoll := 1704164650
            file := some (File.new "/var/log/app.20240102-030410.1234.log")
            filesOpened := 2 } ∧
      exampleState.lastRoll ≤ (1704164650 : Int) ∧
      ((2 : Nat) = exampleState.filesOpened + 1 ↔ exampleState.lastRoll < (1704164650 : Int)) :=
  ⟨by decide,
    (LogFile.lastRoll_monotone exampleEnv exampleState
      (.append 8 fwriteAll (fun _ => 1704164650) "hello".data)
      { exampleState with
          lastRoll := 1704164650
          file := some (File.new "/var/log/app.20240102-030410.1234.log")
          filesOpened := 2 } (by decide)).1,
    (LogFile.lastRoll_monotone exampleEnv exampleState
      (.append 8 fwriteAll (fun _ => 1704164650) "hello".data)
      { exampleState with
          lastRoll := 1704164650
          file := some (File.new "/var/log/app.20240102-030410.1234.log")
          filesOpened := 2 } (by decide)).2.1⟩

/-- Every writer that a construction against the answers of the file system
yields is the one `LogFile.new` yields. -/
theorem LogFile.newIn_writer (fs : FsAnswers) (env : Env) (cwd : String) (clock : Int)
    (dir basename : String) (rollSize : Nat) (threadSafe : Bool) (s : LogFile)
    (h : LogFile.newIn fs env cwd clock dir basename rollSize threadSafe = .writer s) :
    LogFile.new env cwd clock dir basename rollSize threadSafe = some s := by
  unfold LogFile.newIn makePathIn at h
  unfold LogFile.new
  cases hm : makePath cwd dir with
  | none => simp [hm] at h
  | some r =>
    simp only [hm] at h ⊢
    split at h
    · split at h
      · exact congrArg some (Built.writer.inj h)
      · simp at h
    · exact congrArg some (Built.writer.inj h)

/-- C8 fails as stated: constructed while the clock reads 0, with every `mkdir`
and `fopen` succeeding, the writer has no current file (`_file` stays null) and
`lastRoll` keeps its initial value. -/
theorem LogFile.new_counterexample :
    LogFile.newIn fsAll exampleEnv "/" 0 "/var/log/" "app" 4 false
        = .writer { dir := "/var/log/", basename := "app", rollSize := 4, mutex := false,
                    startOfPeriod := 0, lastRoll := 0, file := none, filesOpened := 0 } ∧
      LogFile.new exampleEnv "/" 0 "/var/log/" "app" 4 false
        = some { dir := "/var/log/", basename := "app", rollSize := 4, mutex := false,
                 startOfPeriod := 0, lastRoll := 0, file := none, filesOpened := 0 } := by
  decide

/-- C8, amended. For every base name, roll size and `threadSafe` flag, every
directory `makePath` can hold in its buffer, every clock reading `now > 0` (the
period being positive) and every file system whose `fopen` returns a stream for
the name of the first file, the constructor ends with a current file of that
name whose counter is 0, with `lastRoll = now` and `startOfPeriod` equal to `now`
rounded down to a multiple of the period. -/
theorem LogFile.new_initial_roll (fs : FsAnswers) (env : Env) (cwd : String) (now : Int)
    (dir basename : String) (rollSize : Nat) (threadSafe : Bool) (r : String × List String)
    (hnow : 0 < now) (hk : 0 < env.kRollPerSeconds) (hdir : makePath cwd dir = some r)
    (hopen : fs.fopen (getLogFileName env r.1 basename now).1 = true) :
    ∃ s f, LogFile.newIn fs env cwd now dir basename rollSize threadSafe = .writer s ∧
      s.file = some f ∧ f.writtenBytes = 0 ∧
      f.filename = (getLogFileName env r.1 basename now).1 ∧ s.dir = r.1 ∧
      s.lastRoll = now ∧
      s.startOfPeriod = now / env.kRollPerSeconds * env.kRollPerSeconds ∧
      s.startOfPeriod ≤ now ∧ now < s.startOfPeriod + env.kRollPerSeconds ∧
      s.filesOpened = 1 := by
  have hdiv : Int.tdiv now env.kRollPerSeconds = now / env.kRollPerSeconds :=
    Int.tdiv_eq_ediv (le_of_lt hnow) (le_of_lt hk)
  have hlow : now / env.kRollPerSeconds * env.kRollPerSeconds ≤ now :=
    Int.ediv_mul_le now (ne_of_gt hk)
  have hhigh : now < (now / env.kRollPerSeconds + 1) * env.kRollPerSeconds :=
    Int.lt_ediv_add_one_mul_self now hk
  have hgt : (getLogFileName env r.1 basename now).2 > 0 := hnow
  have hrun : LogFile.newIn fs env cwd now dir basename rollSize threadSafe
      = .writer (LogFile.rollFile env
          { dir := r.1, basename := basename, rollSize := rollSize, mutex := threadSafe,
            startOfPeriod := 0, lastRoll := 0, file := none, filesOpened := 0 } now) := by
    simp only [LogFile.newIn, makePathIn, hdir, hgt, if_true, hopen]
  rw [LogFile.rollFile_commit env _ now hnow] at hrun
  refine ⟨_, File.new (getLogFileName env r.1 basename now).1, hrun, rfl, rfl, rfl, rfl, rfl,
    ?_, ?_, ?_, rfl⟩
  · exact congrArg (· * env.kRollPerSeconds) hdiv
  · show Int.tdiv now env.kRollPerSeconds * env.kRollPerSeconds ≤ now
    rw [hdiv]; exact hlow
  · show now < Int.tdiv now env.kRollPerSeconds * env.kRollPerSeconds + env.kRollPerSeconds
    rw [hdiv]; linarith

/-- C8, amended, for the construction at 2024-01-02 03:04:05 in a file system
where every call succeeds; where `fopen` fails the same construction yields no
writer. -/
theorem LogFile.new_initial_roll_witness :
    LogFile.newIn fsAll exampleEnv "/" 1704164645 "/var/log/" "app" 4 false
        = .writer exampleState ∧
      LogFile.newIn fsNothing exampleEnv "/" 1704164645 "/var/log/" "app" 4 false
        = .nullStream { exampleState with file := none, filesOpened := 0 } ∧
      ∃ s f, LogFile.newIn fsAll exampleEnv "/" 1704164645 "/var/log/" "app" 4 false
          = .writer s ∧
        s.file = some f ∧ f.writtenBytes = 0 ∧
        f.filename = (getLogFileName exampleEnv "/var/log/" "app" 1704164645).1 ∧
        s.dir = "/var/log/" ∧ s.lastRoll = 1704164645 ∧
        s.startOfPeriod = 1704164645 / exampleEnv.kRollPerSeconds * exampleEnv.kRollPerSeconds ∧
        s.startOfPeriod ≤ 1704164645 ∧
        1704164645 < s.startOfPeriod + exampleEnv.kRollPerSeconds ∧
        s.filesOpened = 1 :=
  ⟨by decide, by decide,
    LogFile.new_initial_roll fsAll exampleEnv "/" 1704164645 "/var/log/" "app" 4 false
      ("/var/log/", ["", "/var", "/var/log", "/var/log/"])
      (by decide) (by decide) (by decide) rfl⟩

/-- C1 fails as stated: in the second of its construction the writer of the
example (threshold 4) is handed 5 bytes; the counter ends above the threshold,
`rollFile` reads the clock at `lastRoll` and commits nothing, so the call returns
with the old file current and its counter at 5. -/
theorem LogFile.append_unlocked_size_roll_counterexample :
    LogFile.new exampleEnv "/" 1704164645 "/var/log/" "app" 4 false = some exampleState ∧
      exampleState.append_unlocked exampleEnv 8 fwriteAll (fun _ => 1704164645) "hello".data
        = some { exampleState with
            file := some { filename := "/var/log/app.20240102-030405.1234.log",
                           handle := "hello".data, flushed := 0, writtenBytes := 5 } } := by
  refine ⟨by decide, by decide⟩

/-- C1, amended. If `append_unlocked` leaves the current file's counter strictly
above the threshold after delegating the append and the clock reading of the roll
is strictly later than `lastRoll`, the call returns with a new current file whose
counter is 0, named by `getLogFileName` at that reading; the name differs from the
previous file's name when that one was given by `getLogFileName` at `lastRoll` and
`localtime` sends the two readings to different valid broken-down times. -/
theorem LogFile.append_unlocked_size_roll (env : Env) (fuel : Nat) (fw : Nat → Nat → Nat)
    (clock : Nat → Int) (s : LogFile) (logline : List Char) (f f1 : File)
    (hfile : s.file = some f)
    (happ : f.append env.sizeBits fuel fw logline = some f1)
    (hsize : s.rollSize < f1.writtenBytes) (hnow : s.lastRoll < clock 0) :
    ∃ s1 g, s.append_unlocked env fuel fw clock logline = some s1 ∧
      s1.file = some g ∧
      g = File.new (getLogFileName env s.dir s.basename (clock 0)).1 ∧
      g.writtenBytes = 0 ∧ s1.lastRoll = clock 0 ∧ s1.filesOpened = s.filesOpened + 1 ∧
      (f.filename = (getLogFileName env s.dir s.basename s.lastRoll).1 →
        TmValid (env.localtime s.lastRoll) → TmValid (env.localtime (clock 0)) →
        env.localtime (clock 0) ≠ env.localtime s.lastRoll →
        g.filename ≠ f.filename) := by
  obtain ⟨_, hname, _⟩ := File.append_frame env.sizeBits fuel fw f logline f1 happ
  have hgt : f1.writtenBytes > s.rollSize := hsize
  have hrun : s.append_unlocked env fuel fw clock logline
      = some (LogFile.rollFile env { s with file := some f1 } (clock 0)) := by
    simp only [LogFile.append_unlocked, hfile, happ, hgt, if_true]
  rw [LogFile.rollFile_commit env { s with file := some f1 } (clock 0) hnow] at hrun
  refine ⟨_, File.new (getLogFileName env s.dir s.basename (clock 0)).1, hrun, rfl, rfl, rfl,
    rfl, rfl, ?_⟩
  · intro hold hv1 hv2 hne heq
    apply hne
    apply strftimeStamp_inj _ _ hv2 hv1
    apply getLogFileName_stamp_eq env s.dir s.basename
    rw [← hold]
    exact heq

/-- C1, amended, for 5 bytes handed to the writer of the example five seconds
after its construction. -/
theorem LogFile.append_unlocked_size_roll_witness :
    exampleState.append_unlocked exampleEnv 8 fwriteAll (fun _ => 1704164650) "hello".data
        = some { exampleState with
            lastRoll := 1704164650
            file := some (File.new "/var/log/app.20240102-030410.1234.log")
            filesOpened := 2 } ∧
      ∃ s1 g, exampleState.append_unlocked exampleEnv 8 fwriteAll (fun _ => 1704164650)
          "hello".data = some s1 ∧
        s1.file = some g ∧
        g = File.new (getLogFileName exampleEnv exampleState.dir exampleState.basename
              1704164650).1 ∧
        g.writtenBytes = 0 ∧ s1.lastRoll = 1704164650 ∧
        s1.filesOpened = exampleState.filesOpened + 1 ∧
        ((File.new "/var/log/app.20240102-030405.1234.log").filename
            = (getLogFileName exampleEnv exampleState.dir exampleState.basename
                exampleState.lastRoll).1 →
          TmValid (exampleEnv.localtime exampleState.lastRoll) →
          TmValid (exampleEnv.localtime 1704164650) →
          exampleEnv.localtime 1704164650 ≠ exampleEnv.localtime exampleState.lastRoll →
          g.filename ≠ (File.new "/var/log/app.20240102-030405.1234.log").filename) :=
  ⟨by decide,
    LogFile.append_unlocked_size_roll exampleEnv 8 fwriteAll (fun _ => 1704164650) exampleState
      "hello".data (File.new "/var/log/app.20240102-030405.1234.log")
      { filename := "/var/log/app.20240102-030405.1234.log", handle := "hello".data,
        flushed := 0, writtenBytes := 5 }
      (by decide) (by decide) (by decide) (by decide)⟩

/-! ## Reachable states and the period test -/

theorem LogFile.rollFile_inv (env : Env) (c c1 now : Int) (s : LogFile)
    (h : s.Inv env c) (hc : c ≤ c1) (hnow : now ≤ c1) : (s.rollFile env now).Inv env c1 := by
  obtain ⟨h0, hstart, hfile⟩ := h
  by_cases hlt : s.lastRoll < now
  · rw [LogFile.rollFile_commit env s now hlt]
    exact ⟨by show 0 ≤ now; omega, rfl, fun _ _ => ⟨by show 0 < now; omega, hnow⟩⟩
  · rw [LogFile.rollFile_skip env s now (not_lt.mp hlt)]
    exact ⟨h0, hstart, fun f hf => ⟨(hfile f hf).1, le_trans (hfile f hf).2 hc⟩⟩

theorem LogFile.setFile_inv (env : Env) (c : Int) (s : LogFile) (f f1 : File)
    (h : s.Inv env c) (hf : s.file = some f) :
    ({ s with file := some f1 } : LogFile).Inv env c :=
  ⟨h.1, h.2.1, fun _ _ => h.2.2 f hf⟩

/-- Every reachable state satisfies the invariant. -/
theorem Reach.inv (env : Env) (c : Int) (s : LogFile) (h : Reach env c s) : s.Inv env c := by
  induction h with
  | new cwd clock dir basename rollSize threadSafe s hnew =>
    unfold LogFile.new at hnew
    cases hm : makePath cwd dir with
    | none => simp [hm] at hnew
    | some r =>
      simp only [hm, Option.some.injEq] at hnew
      subst hnew
      apply LogFile.rollFile_inv env clock clock clock _ _ (le_refl _) (le_refl _)
      exact ⟨le_refl _, by simp [Int.zero_tdiv], fun f hf => by simp at hf⟩
  | append c s fuel fw clock logline s1 _ hc0 hc1 happ ih =>
    rw [LogFile.append_eq] at happ
    obtain ⟨f, f1, hf, _, hcase⟩ :=
      LogFile.append_unlocked_cases env fuel fw clock s logline s1 happ
    have hset := LogFile.setFile_inv env c s f f1 ih hf
    rcases hcase with rfl | rfl | rfl
    · exact LogFile.rollFile_inv env c (clock 1) (clock 0) _ hset (le_trans hc0 hc1) hc1
    · exact LogFile.rollFile_inv env c (clock 1) (clock 1) _ hset (le_trans hc0 hc1)
        (le_refl _)
    · obtain ⟨h0, hstart, hfile⟩ := LogFile.setFile_inv env c s f f1.flush ih hf
      exact ⟨h0, hstart, fun g hg =>
        ⟨(hfile g hg).1, le_trans (hfile g hg).2 (le_trans hc0 hc1)⟩⟩
  | flush c s s1 _ hfl ih =>
    unfold LogFile.flush at hfl
    cases hf : s.file with
    | none => simp [hf] at hfl
    | some f =>
      simp only [hf, Option.some.injEq] at hfl
      subst hfl
      exact LogFile.setFile_inv env c s f f.flush ih hf
  | rollFile c s clock _ hc ih =>
    exact LogFile.rollFile_inv env c clock clock s ih hc (le_refl _)

/-- C3. With a period of 86400 seconds, in every state reached from construction
under a clock that never steps back, an append whose reading `clock 0` lies in
another day than `startOfPeriod` while the counter after the append is at most
`rollSize` makes `append_unlocked` commit a roll: the current file is a new one
with counter 0, `lastRoll` is the reading `clock 1` taken by the roll and
`startOfPeriod` is that reading rounded down to a multiple of 86400. -/
theorem LogFile.append_unlocked_period_roll (env : Env) (c : Int) (s : LogFile)
    (fuel : Nat) (fw : Nat → Nat → Nat) (clock : Nat → Int) (logline : List Char)
    (f f1 : File)
    (hk : env.kRollPerSeconds = 86400) (hreach : Reach env c s)
    (hc0 : c ≤ clock 0) (hc1 : clock 0 ≤ clock 1)
    (hfile : s.file = some f)
    (happ : f.append env.sizeBits fuel fw logline = some f1)
    (hsize : f1.writtenBytes ≤ s.rollSize)
    (hday : clock 0 / 86400 * 86400 ≠ s.startOfPeriod) :
    ∃ s1 g, s.append_unlocked env fuel fw clock logline = some s1 ∧
      s1.file = some g ∧
      g = File.new (getLogFileName env s.dir s.basename (clock 1)).1 ∧
      g.writtenBytes = 0 ∧ s1.filesOpened = s.filesOpened + 1 ∧
      s1.lastRoll = clock 1 ∧ s1.startOfPeriod = clock 1 / 86400 * 86400 := by
  obtain ⟨_, hstart, hpos⟩ := Reach.inv env c s hreach
  obtain ⟨hl0, hlc⟩ := hpos f hfile
  rw [hk] at hstart
  have hd0 : Int.tdiv (clock 0) 86400 = clock 0 / 86400 :=
    Int.tdiv_eq_ediv (by omega) (by decide)
  have hd1 : Int.tdiv (clock 1) 86400 = clock 1 / 86400 :=
    Int.tdiv_eq_ediv (by omega) (by decide)
  have hdl : Int.tdiv s.lastRoll 86400 = s.lastRoll / 86400 :=
    Int.tdiv_eq_ediv (by omega) (by decide)
  have hne : clock 0 ≠ s.lastRoll := by
    intro heq
    apply hday
    rw [hstart, hdl, heq]
  have hlt : s.lastRoll < clock 1 := by omega
  have hnsize : ¬ f1.writtenBytes > s.rollSize := not_lt.mpr hsize
  have hper : Int.tdiv (clock 0) 86400 * 86400 ≠ s.startOfPeriod := by rw [hd0]; exact hday
  have hrun : s.append_unlocked env fuel fw clock logline
      = some (LogFile.rollFile env { s with file := some f1 } (clock 1)) := by
    simp only [LogFile.append_unlocked, hfile, happ, hnsize, if_false, hk, ne_eq, hper,
      not_false_eq_true, if_true]
  rw [LogFile.rollFile_commit env { s with file := some f1 } (clock 1) hlt] at hrun
  refine ⟨_, File.new (getLogFileName env s.dir s.basename (clock 1)).1, hrun, rfl, rfl, rfl,
    rfl, rfl, ?_⟩
  show Int.tdiv (clock 1) env.kRollPerSeconds * env.kRollPerSeconds = _
  rw [hk, hd1]

/-- The writer of the example is the one its constructor builds. -/
theorem exampleState_reach : Reach exampleEnv 1704164645 exampleState :=
  Reach.new "/" 1704164645 "/var/log/" "app" 4 false exampleState (by decide)

/-- C3 for 2 bytes handed to the writer of the example one day after its
construction: the threshold of 4 is not reached, the day has changed. -/
theorem LogFile.append_unlocked_period_roll_witness :
    exampleState.append_unlocked exampleEnv 8 fwriteAll (fun _ => 1704251045) "hi".data
        = some { exampleState with
            lastRoll := 1704251045
            startOfPeriod := 1704240000
            file := some (File.new "/var/log/app.20240103-030405.1234.log")
            filesOpened := 2 } ∧
      ∃ s1 g, exampleState.append_unlocked exampleEnv 8 fwriteAll (fun _ => 1704251045)
          "hi".data = some s1 ∧
        s1.file = some g ∧
        g = File.new (getLogFileName exampleEnv exampleState.dir exampleState.basename
              1704251045).1 ∧
        g.writtenBytes = 0 ∧ s1.filesOpened = exampleState.filesOpened + 1 ∧
        s1.lastRoll = 1704251045 ∧ s1.startOfPeriod = 1704251045 / 86400 * 86400 :=
  ⟨by decide,
    LogFile.append_unlocked_period_roll exampleEnv 1704164645 exampleState 8 fwriteAll
      (fun _ => 1704251045) "hi".data (File.new "/var/log/app.20240102-030405.1234.log")
      { filename := "/var/log/app.20240102-030405.1234.log", handle := "hi".data,
        flushed := 0, writtenBytes := 2 }
      rfl exampleState_reach (by decide) (by decide) (by decide) (by decide) (by decide)
      (by decide)⟩

/-! ## The calls of `write` -/

/-- Forgetting the recorded calls gives `File.appendLoop`. -/
theorem File.appendLoopCalls_forget (w : Nat) (fw : Nat → Nat → Nat) (logline : List Char)
    (len : Nat) : ∀ (fuel i : Nat) (f : File) (n remain : Nat),
      (File.appendLoopCalls w fw logline len fuel i f n remain).map (fun r => (r.1, r.2.1))
        = File.appendLoop w fw logline len fuel i f n remain := by
  intro fuel
  induction fuel with
  | zero =>
    intro i f n remain
    by_cases hr : remain > 0 <;> simp [File.appendLoopCalls, File.appendLoop, hr]
  | succ fuel ih =>
    intro i f n remain
    by_cases hr : remain > 0
    · by_cases hx0 : fw i remain = 0
      · simp [File.appendLoopCalls, File.appendLoop, File.write, hr, hx0]
      · simp only [File.appendLoopCalls, File.appendLoop, File.write, hr, hx0, if_true,
          if_false]
        rw [← ih]
        cases File.appendLoopCalls w fw logline len fuel (i + 1)
            { f with handle := f.handle ++ List.take (fw i remain) (List.drop n logline) }
            (addSize w n (fw i remain)) (subSize w len (addSize w n (fw i remain))) with
        | none => rfl
        | some r => rfl
    · simp [File.appendLoopCalls, File.appendLoop, hr]

/-- Forgetting the recorded calls gives `File.appendCore`. -/
theorem File.appendCalls_forget (w fuel : Nat) (fw : Nat → Nat → Nat) (f : File)
    (logline : List Char) :
    (File.appendCalls w fuel fw f logline).map (fun r => (r.1, r.2.1))
      = File.appendCore w fuel fw f logline := by
  unfold File.appendCalls File.appendCore
  simp only
  rw [← File.appendLoopCalls_forget]
  cases File.appendLoopCalls w fw logline logline.length fuel 1
      (File.write fw 0 f logline logline.length).2 (File.write fw 0 f logline logline.length).1
      (subSize w logline.length (File.write fw 0 f logline logline.length).1) with
  | none => rfl
  | some r => rfl

theorem specCommitted_cons (x : Nat) (xs : List Nat) :
    specCommitted (x :: xs) = if x = 0 then 0 else x + specCommitted xs := by
  unfold specCommitted
  by_cases h : x = 0 <;> simp [List.takeWhile, h]

/-- With an `fwrite` that keeps to its contract the loop returns within
`len - n` rounds, and its calls are chained, at most `len - n` in number, never
past `len`, and end with the first zero result. -/
theorem File.appendLoopCalls_spec (w : Nat) (fw : Nat → Nat → Nat) (hfw : FwriteOk fw)
    (logline : List Char) (len : Nat) (hlen : len < 2 ^ w) :
    ∀ (fuel i : Nat) (f : File) (n : Nat), n ≤ len → len - n ≤ fuel →
      ∃ f1 n1 cs, File.appendLoopCalls w fw logline len fuel i f n (len - n)
          = some (f1, n1, cs) ∧
        Chained fw len i n cs ∧ cs.length ≤ len - n ∧
        n1 = n + specCommitted (cs.map WriteCall.result) ∧
        n1 = n + (cs.map WriteCall.result).sum ∧ n1 ≤ len ∧
        (0 ∉ cs.map WriteCall.result → n1 = len) ∧
        (∀ c ∈ cs, c.offset ≤ len ∧ c.requested = len - c.offset ∧
          c.offset + c.result ≤ len) ∧
        f1.handle
          = f.handle ++ cs.flatMap (fun c => (logline.drop c.offset).take c.result) := by
  intro fuel
  induction fuel with
  | zero =>
    intro i f n hn hfuel
    have h0 : len - n = 0 := by omega
    refine ⟨f, n, [], ?_, trivial, by simp, by simp [specCommitted], by simp, hn,
      fun _ => by omega, by simp, by simp⟩
    simp [File.appendLoopCalls, h0]
  | succ fuel ih =>
    intro i f n hn hfuel
    by_cases hr : len - n > 0
    · have hx : fw i (len - n) ≤ len - n := hfw i (len - n)
      by_cases hx0 : fw i (len - n) = 0
      · refine ⟨{ f with handle := f.handle ++ (logline.drop n).take (fw i (len - n)) }, n,
          [{ offset := n, requested := len - n, result := fw i (len - n) }], ?_, ?_, ?_, ?_,
          ?_, hn, ?_, ?_, ?_⟩
        · simp [File.appendLoopCalls, File.write, hr, hx0]
        · exact ⟨rfl, rfl, by omega, rfl, trivial⟩
        · simp only [List.length_singleton]; omega
        · simp [specCommitted_cons, hx0]
        · simp [hx0]
        · intro h; simp [hx0] at h
        · intro c hc
          simp only [List.mem_singleton] at hc
          subst hc
          exact ⟨hn, rfl, by simp only; omega⟩
        · simp [List.flatMap]
      · have hsum : n + fw i (len - n) < 2 ^ w := by omega
        have hadd : addSize w n (fw i (len - n)) = n + fw i (len - n) := addSize_of_lt hsum
        have hsub : subSize w len (n + fw i (len - n)) = len - (n + fw i (len - n)) :=
          subSize_of_le (by omega) hlen
        obtain ⟨f1, n1, cs, hrun, hch, hcount, hspec, hsumr, hle, hnz, hall, hhandle⟩ :=
          ih (i + 1) { f with handle := f.handle ++ (logline.drop n).take (fw i (len - n)) }
            (n + fw i (len - n)) (by omega) (by omega)
        refine ⟨f1, n1, { offset := n, requested := len - n, result := fw i (len - n) } :: cs,
          ?_, ?_, ?_, ?_, ?_, hle, ?_, ?_, ?_⟩
        · simp only [File.appendLoopCalls, File.write, hr, hx0, if_true, if_false, hadd, hsub,
            hrun]
        · exact ⟨rfl, rfl, by omega, rfl, hch⟩
        · simp only [List.length_cons]; omega
        · simp only [List.map_cons, specCommitted_cons, hx0, if_false]; omega
        · simp only [List.map_cons, List.sum_cons]; omega
        · intro h
          apply hnz
          intro hmem
          exact h (by simp only [List.map_cons]; exact List.mem_cons_of_mem _ hmem)
        · intro c hc
          rcases List.mem_cons.mp hc with rfl | hc
          · exact ⟨hn, rfl, by simp only; omega⟩
          · exact hall c hc
        · rw [hhandle]
          simp [List.flatMap, List.append_assoc]
    · have h0 : len - n = 0 := by omega
      refine ⟨f, n, [], ?_, trivial, by simp, by simp [specCommitted], by simp, hn,
        fun _ => by omega, by simp, by simp⟩
      simp [File.appendLoopCalls, h0]

/-- Everything the recorded run of `File::append` satisfies when `fwrite` keeps
to its contract. -/
theorem File.appendCalls_spec (w fuel : Nat) (fw : Nat → Nat → Nat) (hfw : FwriteOk fw)
    (f : File) (logline : List Char) (hlen : logline.length < 2 ^ w)
    (hfuel : logline.length ≤ fuel) :
    ∃ f1 n cs, File.appendCalls w fuel fw f logline
        = some (f1, n, { offset := 0, requested := logline.length,
                         result := fw 0 logline.length } :: cs) ∧
      File.appendCore w fuel fw f logline = some (f1, n) ∧
      Chained fw logline.length 1 (fw 0 logline.length) cs ∧
      cs.length ≤ logline.length ∧
      n = fw 0 logline.length + specCommitted (cs.map WriteCall.result) ∧
      n ≤ logline.length ∧
      (0 ∉ cs.map WriteCall.result → n = logline.length) ∧
      (∀ c ∈ cs, c.offset ≤ logline.length ∧ c.requested = logline.length - c.offset ∧
        c.offset + c.result ≤ logline.length) ∧
      f1.handle = f.handle ++ logline.take n ∧
      f1.handle = f.handle ++ logline.take (fw 0 logline.length)
        ++ cs.flatMap (fun c => (logline.drop c.offset).take c.result) := by
  have hx : fw 0 logline.length ≤ logline.length := hfw 0 logline.length
  have hsub : subSize w logline.length (fw 0 logline.length)
      = logline.length - fw 0 logline.length := subSize_of_le hx hlen
  obtain ⟨f1, n1, cs, hrun, hch, hcount, hspec, _, hle, hnz, hall, hhandle⟩ :=
    File.appendLoopCalls_spec w fw hfw logline logline.length hlen fuel 1
      { f with handle := f.handle ++ logline.take (fw 0 logline.length) }
      (fw 0 logline.length) hx (by omega)
  have hcalls : File.appendCalls w fuel fw f logline
      = some ({ f1 with writtenBytes := addSize w f1.writtenBytes logline.length }, n1,
          { offset := 0, requested := logline.length, result := fw 0 logline.length } :: cs) := by
    simp only [File.appendCalls, File.write, hsub, hrun]
  have hcore : File.appendCore w fuel fw f logline
      = some ({ f1 with writtenBytes := addSize w f1.writtenBytes logline.length }, n1) := by
    rw [← File.appendCalls_forget, hcalls]
    rfl
  obtain ⟨g, k, hg, _, hgh, _⟩ := File.appendCore_spec w fuel fw hfw f logline hlen hfuel
  rw [hcore] at hg
  simp only [Option.some.injEq, Prod.mk.injEq] at hg
  obtain ⟨hg1, hg2⟩ := hg
  subst hg1 hg2
  exact ⟨_, n1, cs, hcalls, hcore, hch, by omega, hspec, hle, hnz, hall, hgh, hhandle⟩

/-- C15 fails as stated: `fwrite` answers 0 to the first call and 5 to the
second; the sum of the results before the first zero result is 0, yet
`File::append` has handed all 5 bytes of "hello" to the handle. -/
theorem File.append_retry_counterexample :
    File.appendCalls 64 8 fwriteSecond (File.new "a.log") "hello".data
        = some ({ filename := "a.log", handle := "hello".data, flushed := 0, writtenBytes := 5 },
            5, [{ offset := 0, requested := 5, result := 0 },
                { offset := 0, requested := 5, result := 5 }]) ∧
      specCommitted [0, 5] = 0 := by
  decide

/-- C15, amended. For every payload and every `fwrite` that returns between 0
and the number of bytes requested, `File::append` hands the handle exactly the
first `n` bytes of the payload, call after call with no byte repeated or skipped,
where `n` is the result of the first call plus the results of the re-issued calls
before the first zero among them and `n = len` when no re-issued call returns
zero; each re-issued call starts at the offset reached so far and requests the
`len - offset` bytes that remain. -/
theorem File.append_retry_in_order (w fuel : Nat) (fw : Nat → Nat → Nat) (hfw : FwriteOk fw)
    (f : File) (logline : List Char) (hlen : logline.length < 2 ^ w)
    (hfuel : logline.length ≤ fuel) :
    ∃ f1 n cs, File.appendCalls w fuel fw f logline
        = some (f1, n, { offset := 0, requested := logline.length,
                         result := fw 0 logline.length } :: cs) ∧
      File.append w fuel fw f logline = some f1 ∧
      Chained fw logline.length 1 (fw 0 logline.length) cs ∧
      n = fw 0 logline.length + specCommitted (cs.map WriteCall.result) ∧
      (0 ∉ cs.map WriteCall.result → n = logline.length) ∧
      f1.handle = f.handle ++ logline.take n ∧
      f1.handle = f.handle ++ logline.take (fw 0 logline.length)
        ++ cs.flatMap (fun c => (logline.drop c.offset).take c.result) := by
  obtain ⟨f1, n, cs, hcalls, hcore, hch, _, hspec, _, hnz, _, hh1, hh2⟩ :=
    File.appendCalls_spec w fuel fw hfw f logline hlen hfuel
  exact ⟨f1, n, cs, hcalls, by simp [File.append, hcore], hch, hspec, hnz, hh1, hh2⟩

/-- C15, amended, where `fwrite` takes 2 of the 5 bytes and then nothing. -/
theorem File.append_retry_in_order_witness :
    File.appendCalls 64 8 (fwriteFirst 2) (File.new "a.log") "hello".data
        = some ({ filename := "a.log", handle := "he".data, flushed := 0, writtenBytes := 5 },
            2, [{ offset := 0, requested := 5, result := 2 },
                { offset := 2, requested := 3, result := 0 }]) ∧
      ∃ f1 n cs, File.appendCalls 64 8 (fwriteFirst 2) (File.new "a.log") "hello".data
          = some (f1, n, { offset := 0, requested := "hello".data.length,
                           result := fwriteFirst 2 0 "hello".data.length } :: cs) ∧
        File.append 64 8 (fwriteFirst 2) (File.new "a.log") "hello".data = some f1 ∧
        Chained (fwriteFirst 2) "hello".data.length 1 (fwriteFirst 2 0 "hello".data.length) cs ∧
        n = fwriteFirst 2 0 "hello".data.length + specCommitted (cs.map WriteCall.result) ∧
        (0 ∉ cs.map WriteCall.result → n = "hello".data.length) ∧
        f1.handle = (File.new "a.log").handle ++ "hello".data.take n ∧
        f1.handle = (File.new "a.log").handle
          ++ "hello".data.take (fwriteFirst 2 0 "hello".data.length)
          ++ cs.flatMap (fun c => ("hello".data.drop c.offset).take c.result) :=
  ⟨by decide,
    File.append_retry_in_order 64 8 (fwriteFirst 2) (fwriteFirst_ok 2) (File.new "a.log")
      "hello".data (by decide) (by decide)⟩

/-- C16. For every payload of length `len` and every `fwrite` that returns
between 0 and the number of bytes requested, `File::append` returns once the fuel
covers `len` rounds of the loop; it makes at most `len + 1` calls of `write`; at
every call the committed count (the offset) is at most `len`, stays so after
adding the result, and the requested count is `len - offset` without
wrap-around. -/
theorem File.append_terminates (w fuel : Nat) (fw : Nat → Nat → Nat) (hfw : FwriteOk fw)
    (f : File) (logline : List Char) (hlen : logline.length < 2 ^ w)
    (hfuel : logline.length ≤ fuel) :
    ∃ f1 n calls, File.appendCalls w fuel fw f logline = some (f1, n, calls) ∧
      File.append w fuel fw f logline = some f1 ∧
      calls.length ≤ logline.length + 1 ∧ n ≤ logline.length ∧
      (∀ c ∈ calls, c.offset ≤ logline.length ∧ c.requested = logline.length - c.offset ∧
        c.offset + c.result ≤ logline.length) := by
  obtain ⟨f1, n, cs, hcalls, hcore, _, hcount, _, hle, _, hall, _, _⟩ :=
    File.appendCalls_spec w fuel fw hfw f logline hlen hfuel
  refine ⟨f1, n, _, hcalls, by simp [File.append, hcore], ?_, hle, ?_⟩
  · simp only [List.length_cons]; omega
  · intro c hc
    rcases List.mem_cons.mp hc with rfl | hc
    · exact ⟨Nat.zero_le _, rfl, by simpa using hfw 0 logline.length⟩
    · exact hall c hc

theorem fwriteSlow_ok : FwriteOk fwriteSlow := by
  intro i len
  unfold fwriteSlow
  split <;> omega

/-- C16 where `fwrite` refuses the first call and then takes one byte per call:
the 3 bytes of "abc" need 4 calls. -/
theorem File.append_terminates_witness :
    File.appendCalls 64 3 fwriteSlow (File.new "a.log") "abc".data
        = some ({ filename := "a.log", handle := "abc".data, flushed := 0, writtenBytes := 3 },
            3, [{ offset := 0, requested := 3, result := 0 },
                { offset := 0, requested := 3, result := 1 },
                { offset := 1, requested := 2, result := 1 },
                { offset := 2, requested := 1, result := 1 }]) ∧
      ∃ f1 n calls, File.appendCalls 64 3 fwriteSlow (File.new "a.log") "abc".data
          = some (f1, n, calls) ∧
        File.append 64 3 fwriteSlow (File.new "a.log") "abc".data = some f1 ∧
        calls.length ≤ "abc".data.length + 1 ∧ n ≤ "abc".data.length ∧
        (∀ c ∈ calls, c.offset ≤ "abc".data.length ∧
          c.requested = "abc".data.length - c.offset ∧
          c.offset + c.result ≤ "abc".data.length) :=
  ⟨by decide,
    File.append_terminates 64 3 fwriteSlow fwriteSlow_ok (File.new "a.log") "abc".data
      (by decide) (by decide)⟩

/-! ## The period alignment invariant -/

/-- The members `rollFile` leaves satisfy: `lastRoll` is not negative and
`startOfPeriod` is the period start computed from it. -/
theorem LogFile.rollFile_aligned (env : Env) (s : LogFile) (now : Int)
    (h : 0 ≤ s.lastRoll ∧
      s.startOfPeriod = Int.tdiv s.lastRoll env.kRollPerSeconds * env.kRollPerSeconds) :
    0 ≤ (s.rollFile env now).lastRoll ∧
      (s.rollFile env now).startOfPeriod
        = Int.tdiv (s.rollFile env now).lastRoll env.kRollPerSeconds * env.kRollPerSeconds := by
  by_cases hlt : s.lastRoll < now
  · rw [LogFile.rollFile_commit env s now hlt]
    exact ⟨by show 0 ≤ now; omega, rfl⟩
  · rw [LogFile.rollFile_skip env s now (not_lt.mp hlt)]
    exact h

/-- In every reachable state `lastRoll` is not negative and `startOfPeriod` is
the period start computed from it. -/
theorem Reachable.aligned (env : Env) (s : LogFile) (h : Reachable env s) :
    0 ≤ s.lastRoll ∧
      s.startOfPeriod = Int.tdiv s.lastRoll env.kRollPerSeconds * env.kRollPerSeconds := by
  induction h with
  | new cwd clock dir basename rollSize threadSafe s hnew =>
    unfold LogFile.new at hnew
    cases hm : makePath cwd dir with
    | none => simp [hm] at hnew
    | some r =>
      simp only [hm, Option.some.injEq] at hnew
      subst hnew
      apply LogFile.rollFile_aligned
      exact ⟨le_refl _, by simp [Int.zero_tdiv]⟩
  | step s op s1 _ hstep ih =>
    cases op with
    | append fuel fw clock logline =>
      simp only [LogFile.step, LogFile.append_eq] at hstep
      obtain ⟨f, f1, _, _, hcase⟩ :=
        LogFile.append_unlocked_cases env fuel fw clock s logline s1 hstep
      rcases hcase with rfl | rfl | rfl
      · exact LogFile.rollFile_aligned env { s with file := some f1 } (clock 0) ih
      · exact LogFile.rollFile_aligned env { s with file := some f1 } (clock 1) ih
      · exact ih
    | flush =>
      simp only [LogFile.step, LogFile.flush] at hstep
      cases hf : s.file with
      | none => simp [hf] at hstep
      | some f =>
        simp only [hf, Option.some.injEq] at hstep
        subst hstep
        exact ih
    | rollFile clock =>
      simp only [LogFile.step, Option.some.injEq] at hstep
      subst hstep
      exact LogFile.rollFile_aligned env s clock ih

/-- C17. In every state reached from construction by `append`, `flush` and
`rollFile`, whatever the clock read (positive readings included), with a positive
period: `startOfPeriod` is a multiple of the period and
`startOfPeriod ≤ lastRoll < startOfPeriod + period`, so `startOfPeriod` is
`lastRoll` rounded down to a multiple of the period. -/
theorem LogFile.period_aligned (env : Env) (s : LogFile) (hk : 0 < env.kRollPerSeconds)
    (hreach : Reachable env s) :
    env.kRollPerSeconds ∣ s.startOfPeriod ∧ s.startOfPeriod ≤ s.lastRoll ∧
      s.lastRoll < s.startOfPeriod + env.kRollPerSeconds ∧
      s.startOfPeriod = s.lastRoll / env.kRollPerSeconds * env.kRollPerSeconds := by
  obtain ⟨h0, hstart⟩ := Reachable.aligned env s hreach
  have hdiv : Int.tdiv s.lastRoll env.kRollPerSeconds = s.lastRoll / env.kRollPerSeconds :=
    Int.tdiv_eq_ediv h0 (le_of_lt hk)
  rw [hdiv] at hstart
  have hlow : s.lastRoll / env.kRollPerSeconds * env.kRollPerSeconds ≤ s.lastRoll :=
    Int.ediv_mul_le s.lastRoll (ne_of_gt hk)
  have hhigh : s.lastRoll < (s.lastRoll / env.kRollPerSeconds + 1) * env.kRollPerSeconds :=
    Int.lt_ediv_add_one_mul_self s.lastRoll hk
  refine ⟨?_, ?_, ?_, hstart⟩
  · rw [hstart]; exact Dvd.intro_left _ rfl
  · rw [hstart]; exact hlow
  · rw [hstart]; linarith

/-- The writer of the example is reachable. -/
theorem exampleState_reachable : Reachable exampleEnv exampleState :=
  Reachable.new "/" 1704164645 "/var/log/" "app" 4 false exampleState (by decide)

/-- C17 for the writer of the example after an append on the next day. -/
theorem LogFile.period_aligned_witness :
    exampleState.step exampleEnv (.append 8 fwriteAll (fun _ => 1704251045) "hi".data)
        = some { exampleState with
            lastRoll := 1704251045
            startOfPeriod := 1704240000
            file := some (File.new "/var/log/app.20240103-030405.1234.log")
            filesOpened := 2 } ∧
      (86400 : Int) ∣ 1704240000 ∧ (1704240000 : Int) ≤ 1704251045 ∧
      (1704251045 : Int) < 1704240000 + 86400 ∧
      (1704240000 : Int) = 1704251045 / 86400 * 86400 :=
  ⟨by decide,
    LogFile.period_aligned exampleEnv
      { exampleState with
          lastRoll := 1704251045
          startOfPeriod := 1704240000
          file := some (File.new "/var/log/app.20240103-030405.1234.log")
          filesOpened := 2 } (by decide)
      (Reachable.step exampleState (.append 8 fwriteAll (fun _ => 1704251045) "hi".data) _
        exampleState_reachable (by decide))⟩

/-! ## The size threshold and the period test on `append` -/

/-- One byte appended in the second of the last roll stays in the current file,
whatever its counter. -/
theorem LogFile.append_same_second (env : Env) (now : Int) (s : LogFile) (f : File)
    (hfile : s.file = some f) (hlast : s.lastRoll = now)
    (hwrap : f.writtenBytes + 1 < 2 ^ env.sizeBits) :
    ∃ s1 g, s.append env 1 fwriteAll (fun _ => now) ['x'] = some s1 ∧
      s1.file = some g ∧ g.writtenBytes = f.writtenBytes + 1 ∧
      s1.lastRoll = now ∧ s1.rollSize = s.rollSize := by
  have hlen : (['x'] : List Char).length < 2 ^ env.sizeBits := by
    simp only [List.length_singleton]; omega
  obtain ⟨f1, hrun, hwb, _, _⟩ :=
    File.append_spec env.sizeBits 1 fwriteAll fwriteAll_ok f ['x'] hlen (le_refl _)
  have hwb1 : f1.writtenBytes = f.writtenBytes + 1 := by
    rw [hwb]; exact addSize_of_lt hwrap
  have hskip : ∀ t : LogFile, t.lastRoll = now → t.rollFile env now = t :=
    fun t ht => LogFile.rollFile_skip env t now (le_of_eq ht.symm)
  rw [LogFile.append_eq]
  unfold LogFile.append_unlocked
  simp only [hfile, hrun]
  split
  · rw [hskip { s with file := some f1 } hlast]
    exact ⟨_, f1, rfl, rfl, hwb1, hlast, rfl⟩
  · split
    · rw [hskip { s with file := some f1 } hlast]
      exact ⟨_, f1, rfl, rfl, hwb1, hlast, rfl⟩
    · exact ⟨_, f1.flush, rfl, rfl, hwb1, hlast, rfl⟩

/-- Any number of one-byte appends in the second of the last roll all stay in
the current file. -/
theorem LogFile.appendBytes_same_second (env : Env) (now : Int) :
    ∀ (k : Nat) (s : LogFile) (f : File), s.file = some f → s.lastRoll = now →
      f.writtenBytes + k < 2 ^ env.sizeBits →
      ∃ s1 g, LogFile.appendBytes env now k s = some s1 ∧ s1.file = some g ∧
        g.writtenBytes = f.writtenBytes + k ∧ s1.rollSize = s.rollSize := by
  intro k
  induction k with
  | zero => intro s f hfile _ _; exact ⟨s, f, rfl, hfile, rfl, rfl⟩
  | succ k ih =>
    intro s f hfile hlast hwrap
    obtain ⟨s1, g, hrun, hfile1, hwb, hlast1, hsize⟩ :=
      LogFile.append_same_second env now s f hfile hlast (by omega)
    obtain ⟨s2, g2, hrun2, hfile2, hwb2, hsize2⟩ := ih s1 g hfile1 hlast1 (by omega)
    refine ⟨s2, g2, ?_, hfile2, by omega, by rw [hsize2, hsize]⟩
    simp only [LogFile.appendBytes, hrun]
    exact hrun2

/-- C11 fails as stated, with a clock that does not step back: the writer
`LogFile("/var/log/", "app", 1024, true)` receives 2000 one-byte appends in the
second of its construction; no roll passes the guard and the counter of the
current file ends at 2000, above 1024 + 1. -/
theorem LogFile.append_overshoot_counterexample :
    ∃ s g, (LogFile.new exampleEnv "/" 1704164645 "/var/log/" "app" 1024 true).bind
        (LogFile.appendBytes exampleEnv 1704164645 2000) = some s ∧
      s.file = some g ∧ s.rollSize = 1024 ∧ g.writtenBytes = 2000 ∧
      1024 + 1 < g.writtenBytes := by
  have hnew : LogFile.new exampleEnv "/" 1704164645 "/var/log/" "app" 1024 true
      = some { exampleState with rollSize := 1024, mutex := true } := by decide
  obtain ⟨s1, g, hrun, hfile, hwb, hsize⟩ :=
    LogFile.appendBytes_same_second exampleEnv 1704164645 2000
      { exampleState with rollSize := 1024, mutex := true }
      (File.new "/var/log/app.20240102-030405.1234.log") rfl rfl
      (by show 0 + 2000 < 2 ^ 64; norm_num)
  have hwb0 : g.writtenBytes = 2000 := by
    rw [hwb]; show 0 + 2000 = 2000; rfl
  refine ⟨s1, g, ?_, hfile, hsize, hwb0, ?_⟩
  · rw [hnew, Option.some_bind]; exact hrun
  · rw [hwb0]; norm_num

/-- C11, amended. For every writer with a current file and every append whose
clock reading is strictly later than `lastRoll` (as under a clock that advances
between appends), with an `fwrite` that keeps to its contract, `LogFile::append`
returns and the current file's counter is then at most the threshold `S`, hence
at most `S` plus the length of that append; with `S = 1024` and a one-byte append
it is at most 1025. -/
theorem LogFile.append_overshoot_bounded (env : Env) (fuel : Nat) (fw : Nat → Nat → Nat)
    (clock : Nat → Int) (s : LogFile) (logline : List Char) (f : File)
    (hfile : s.file = some f) (hfw : FwriteOk fw)
    (hlen : logline.length < 2 ^ env.sizeBits) (hfuel : logline.length ≤ fuel)
    (hnow : s.lastRoll < clock 0) :
    ∃ s1 g, s.append env fuel fw clock logline = some s1 ∧ s1.file = some g ∧
      s1.rollSize = s.rollSize ∧ g.writtenBytes ≤ s.rollSize ∧
      g.writtenBytes ≤ s.rollSize + logline.length ∧
      (s.rollSize = 1024 → logline.length = 1 → g.writtenBytes ≤ 1025) := by
  obtain ⟨f1, hrun, _, _, _⟩ :=
    File.append_spec env.sizeBits fuel fw hfw f logline hlen hfuel
  have key : ∃ s1 g, s.append env fuel fw clock logline = some s1 ∧ s1.file = some g ∧
      s1.rollSize = s.rollSize ∧ g.writtenBytes ≤ s.rollSize := by
    rw [LogFile.append_eq]
    unfold LogFile.append_unlocked
    simp only [hfile, hrun]
    split
    · rw [LogFile.rollFile_commit env { s with file := some f1 } (clock 0) hnow]
      exact ⟨_, _, rfl, rfl, rfl, Nat.zero_le _⟩
    · rename_i hsize
      have hle : f1.writtenBytes ≤ s.rollSize := not_lt.mp hsize
      split
      · by_cases hlt : s.lastRoll < clock 1
        · rw [LogFile.rollFile_commit env { s with file := some f1 } (clock 1) hlt]
          exact ⟨_, _, rfl, rfl, rfl, Nat.zero_le _⟩
        · rw [LogFile.rollFile_skip env { s with file := some f1 } (clock 1) (not_lt.mp hlt)]
          exact ⟨_, f1, rfl, rfl, rfl, hle⟩
      · exact ⟨_, f1.flush, rfl, rfl, rfl, hle⟩
  obtain ⟨s1, g, h1, h2, h3, h4⟩ := key
  exact ⟨s1, g, h1, h2, h3, h4, by omega, fun hS hl => by omega⟩

/-- C11, amended, for 5 bytes handed to the writer of the example (threshold 4)
five seconds after its construction. -/
theorem LogFile.append_overshoot_bounded_witness :
    exampleState.append exampleEnv 8 fwriteAll (fun _ => 1704164650) "hello".data
        = some { exampleState with
            lastRoll := 1704164650
            file := some (File.new "/var/log/app.20240102-030410.1234.log")
            filesOpened := 2 } ∧
      ∃ s1 g, exampleState.append exampleEnv 8 fwriteAll (fun _ => 1704164650) "hello".data
          = some s1 ∧ s1.file = some g ∧
        s1.rollSize = exampleState.rollSize ∧ g.writtenBytes ≤ exampleState.rollSize ∧
        g.writtenBytes ≤ exampleState.rollSize + "hello".data.length ∧
        (exampleState.rollSize = 1024 → "hello".data.length = 1 → g.writtenBytes ≤ 1025) :=
  ⟨by decide,
    LogFile.append_overshoot_bounded exampleEnv 8 fwriteAll (fun _ => 1704164650) exampleState
      "hello".data (File.new "/var/log/app.20240102-030405.1234.log") rfl fwriteAll_ok
      (by decide) (by decide) (by decide)⟩

/-- In every reachable state `startOfPeriod` is not negative when the period is
positive. -/
theorem Reachable.startOfPeriod_nonneg (env : Env) (s : LogFile)
    (hk : 0 < env.kRollPerSeconds) (h : Reachable env s) : 0 ≤ s.startOfPeriod := by
  obtain ⟨h0, hstart⟩ := Reachable.aligned env s h
  rw [hstart]
  exact mul_nonneg (Int.tdiv_nonneg h0 (le_of_lt hk)) (le_of_lt hk)

/-- C12. For every writer whose `startOfPeriod` is not negative (as in every
state reached from construction), a positive period and every append after which
the current file's counter is at most `rollSize` and whose clock reading `now`
satisfies `floor(now / period) * period = startOfPeriod`, `append_unlocked` keeps
the same current file, its counter increased by the append's length (in `size_t`
arithmetic), flushes it, and leaves `lastRoll` and `startOfPeriod` unchanged. -/
theorem LogFile.append_unlocked_no_roll (env : Env) (fuel : Nat) (fw : Nat → Nat → Nat)
    (clock : Nat → Int) (s : LogFile) (logline : List Char) (f f1 : File)
    (hk : 0 < env.kRollPerSeconds) (hstart : 0 ≤ s.startOfPeriod)
    (hfile : s.file = some f)
    (happ : f.append env.sizeBits fuel fw logline = some f1)
    (hsize : f1.writtenBytes ≤ s.rollSize)
    (hper : clock 0 / env.kRollPerSeconds * env.kRollPerSeconds = s.startOfPeriod) :
    s.append_unlocked env fuel fw clock logline = some { s with file := some f1.flush } ∧
      f1.flush.filename = f.filename ∧
      f1.flush.writtenBytes = (f.writtenBytes + logline.length) % 2 ^ env.sizeBits ∧
      (f.writtenBytes + logline.length < 2 ^ env.sizeBits →
        f1.flush.writtenBytes = f.writtenBytes + logline.length) ∧
      f1.flush.flushed = f1.flush.handle.length ∧ f1.flush.handle = f1.handle ∧
      ({ s with file := some f1.flush } : LogFile).lastRoll = s.lastRoll ∧
      ({ s with file := some f1.flush } : LogFile).startOfPeriod = s.startOfPeriod ∧
      ({ s with file := some f1.flush } : LogFile).filesOpened = s.filesOpened := by
  obtain ⟨hwb, hname, _⟩ := File.append_frame env.sizeBits fuel fw f logline f1 happ
  have hnow : 0 ≤ clock 0 := by
    by_contra hneg
    have hlt : clock 0 < 0 := not_le.mp hneg
    have h1 : clock 0 / env.kRollPerSeconds * env.kRollPerSeconds ≤ clock 0 :=
      Int.ediv_mul_le (clock 0) (ne_of_gt hk)
    omega
  have hdiv : Int.tdiv (clock 0) env.kRollPerSeconds = clock 0 / env.kRollPerSeconds :=
    Int.tdiv_eq_ediv hnow (le_of_lt hk)
  have hnsize : ¬ f1.writtenBytes > s.rollSize := not_lt.mpr hsize
  refine ⟨?_, hname, hwb, fun h => ?_, rfl, rfl, rfl, rfl, rfl⟩
  · simp only [LogFile.append_unlocked, hfile, happ, hnsize, if_false, hdiv, hper, ne_eq,
      not_true_eq_false]
  · show f1.writtenBytes = _
    rw [hwb]; exact addSize_of_lt h

/-- C12 for 2 bytes handed to the writer of the example (threshold 4) five
seconds after its construction. -/
theorem LogFile.append_unlocked_no_roll_witness :
    exampleState.append_unlocked exampleEnv 8 fwriteAll (fun _ => 1704164650) "hi".data
        = some { exampleState with
            file := some { filename := "/var/log/app.20240102-030405.1234.log",
                           handle := "hi".data, flushed := 2, writtenBytes := 2 } } ∧
      (0 : Int) ≤ exampleState.startOfPeriod ∧
      (1704164650 : Int) / exampleEnv.kRollPerSeconds * exampleEnv.kRollPerSeconds
        = exampleState.startOfPeriod :=
  ⟨(LogFile.append_unlocked_no_roll exampleEnv 8 fwriteAll (fun _ => 1704164650) exampleState
      "hi".data (File.new "/var/log/app.20240102-030405.1234.log")
      { filename := "/var/log/app.20240102-030405.1234.log", handle := "hi".data,
        flushed := 0, writtenBytes := 2 }
      (by decide) (by decide) (by decide) (by decide) (by decide) (by decide)).1,
    by decide, by decide⟩

/-! ## `LogFile::makePath` -/

theorem cstr_of_no_nul (p : List Char) (h : '\x00' ∉ p) : cstr p = p := by
  unfold cstr
  rw [List.takeWhile_eq_self_iff]
  intro c hc
  have hne : c ≠ '\x00' := fun heq => h (heq ▸ hc)
  simpa using hne

/-- The loop of `makePath` rewrites the separators of what is left of the buffer
and leaves the part already visited alone. -/
theorem makePathLoop_fst : ∀ (rest done : List Char) (calls : List (List Char)),
    (makePathLoop done rest calls).1 = done ++ specSlashes rest := by
  intro rest
  induction rest with
  | nil => intro done calls; simp [makePathLoop, specSlashes]
  | cons c rest ih =>
    intro done calls
    unfold makePathLoop
    by_cases h1 : c = '\\'
    · subst h1
      simp only [true_or, if_true]
      rw [ih]
      simp [specSlashes]
    · by_cases h2 : c = '/'
      · subst h2
        simp only [or_true, if_true]
        rw [ih]
        simp [specSlashes]
      · have hno : ¬ (c = '\\' ∨ c = '/') := fun h => h.elim h1 h2
        rw [if_neg hno, ih]
        simp [specSlashes, h1]

theorem specSlashes_length (p : List Char) : (specSlashes p).length = p.length := by
  simp [specSlashes]

theorem specSlashes_head (p : List Char) (h : p.head? = some '/') :
    (specSlashes p).head? = some '/' := by
  unfold specSlashes
  rw [List.head?_map, h]
  rfl

theorem specNormalise_head (p : List Char) (h : p.head? = some '/') :
    (specNormalise p).head? = some '/' := by
  have hs := specSlashes_head p h
  unfold specNormalise
  split
  · exact hs
  · rw [List.head?_append, hs]; rfl

theorem specNormalise_getLast (p : List Char) : (specNormalise p).getLast? = some '/' := by
  unfold specNormalise
  split
  · assumption
  · exact List.getLast?_concat _

/-- What `makePath` returns once the buffer is filled with `filePath`. -/
theorem makePath_tail (filePath : List Char) (hfit : filePath.length + 2 ≤ 1000) :
    ∃ calls : List String,
      (if (makePathLoop [] filePath []).1.getLast? = some '/' then
          some (String.mk (makePathLoop [] filePath []).1,
            ((makePathLoop [] filePath []).2 ++ [(makePathLoop [] filePath []).1]).map String.mk)
        else if (makePathLoop [] filePath []).1.length + 2 ≤ 1000 then
          some (String.mk ((makePathLoop [] filePath []).1 ++ ['/']),
            ((makePathLoop [] filePath []).2 ++ [(makePathLoop [] filePath []).1]).map String.mk)
        else none)
      = some (String.mk (specNormalise filePath), calls) := by
  have h1 : (makePathLoop [] filePath []).1 = specSlashes filePath := by
    rw [makePathLoop_fst]; rfl
  rw [h1]
  unfold specNormalise
  by_cases hl : (specSlashes filePath).getLast? = some '/'
  · rw [if_pos hl, if_pos hl]; exact ⟨_, rfl⟩
  · have hlen : (specSlashes filePath).length + 2 ≤ 1000 := by
      rw [specSlashes_length]; exact hfit
    rw [if_neg hl, if_neg hl, if_pos hlen]; exact ⟨_, rfl⟩

/-- C13. For every directory string `dir` and every absolute working directory
`cwd`, both free of NUL, whose combined length fits the 1000-byte buffer,
`makePath` returns and rewrites `dir` to a string that begins and ends with `/`:
for `dir` starting with `/` it is `dir` with every `\` replaced by `/` and one
`/` appended if it did not already end with one; for any other `dir` it is `cwd`,
one `/` and `dir`, normalised the same way. -/
theorem makePath_normalises (cwd dir : String)
    (hnul : '\x00' ∉ dir.data) (hnulc : '\x00' ∉ cwd.data)
    (habs : cwd.data.head? = some '/')
    (hfit : cwd.length + dir.length + 3 ≤ 1000) :
    (∃ calls, makePath cwd dir = some (specMakePath cwd dir, calls)) ∧
      (specMakePath cwd dir).data.head? = some '/' ∧
      (specMakePath cwd dir).data.getLast? = some '/' ∧
      (dir.data.head? = some '/' →
        specMakePath cwd dir = String.mk (specNormalise dir.data)) ∧
      (dir.data.head? ≠ some '/' →
        specMakePath cwd dir = String.mk (specNormalise (cwd.data ++ ['/'] ++ dir.data))) := by
  have hd : cstr dir.data = dir.data := cstr_of_no_nul _ hnul
  have hc : cstr cwd.data = cwd.data := cstr_of_no_nul _ hnulc
  have hdl : dir.length = dir.data.length := rfl
  have hcl : cwd.length = cwd.data.length := rfl
  rw [hdl, hcl] at hfit
  by_cases hhead : dir.data.head? = some '/'
  · have hspec : specMakePath cwd dir = String.mk (specNormalise dir.data) := by
      unfold specMakePath; rw [if_pos hhead]
    refine ⟨?_, ?_, ?_, fun _ => hspec, fun h => absurd hhead h⟩
    · obtain ⟨calls, hcalls⟩ := makePath_tail dir.data (by omega)
      refine ⟨calls, ?_⟩
      rw [hspec, ← hcalls]
      have hlen : dir.data.length + 1 ≤ 1000 := by omega
      simp only [makePath, hd, hhead, decide_True, Bool.not_true, Bool.false_eq_true,
        if_false, hlen, if_true]
    · rw [hspec]; exact specNormalise_head _ hhead
    · rw [hspec]; exact specNormalise_getLast _
  · have hspec : specMakePath cwd dir
        = String.mk (specNormalise (cwd.data ++ ['/'] ++ dir.data)) := by
      unfold specMakePath; rw [if_neg hhead]
    have hjoin : (cwd.data ++ ['/'] ++ dir.data).head? = some '/' := by
      cases hcd : cwd.data with
      | nil => rw [hcd] at habs; simp at habs
      | cons a as => rw [hcd] at habs; simpa using habs
    refine ⟨?_, ?_, ?_, fun h => absurd h hhead, fun _ => hspec⟩
    · obtain ⟨calls, hcalls⟩ := makePath_tail (cwd.data ++ ['/'] ++ dir.data) (by
        simp only [List.length_append, List.length_singleton]; omega)
      refine ⟨calls, ?_⟩
      rw [hspec, ← hcalls]
      have h1 : cwd.data.length + 2 ≤ 1000 := by omega
      have htake : List.take (1000 - (cwd.data ++ ['/']).length) dir.data = dir.data := by
        apply List.take_of_length_le
        simp only [List.length_append, List.length_singleton]; omega
      have h2 : (cwd.data ++ ['/']).length + dir.data.length + 1 ≤ 1000 := by
        simp only [List.length_append, List.length_singleton]; omega
      simp only [makePath, hd, hc, hhead, decide_False, Bool.not_false, if_true, h1, htake, h2]
    · rw [hspec]; exact specNormalise_head _ hjoin
    · rw [hspec]; exact specNormalise_getLast _

/-- C13 for the relative directory `logs\app` under the working directory
`/home/u`, and for the absolute directory `/var/log`. -/
theorem makePath_normalises_witness :
    (makePath "/home/u" "logs\\app").map Prod.fst = some "/home/u/logs/app/" ∧
      (makePath "/home/u" "/var/log").map Prod.fst = some "/var/log/" ∧
      specMakePath "/home/u" "logs\\app" = "/home/u/logs/app/" ∧
      (∃ calls, makePath "/home/u" "logs\\app"
        = some (specMakePath "/home/u" "logs\\app", calls)) :=
  ⟨by decide, by decide, by decide,
    (makePath_normalises "/home/u" "logs\\app" (by decide) (by decide) (by decide)
      (by decide)).1⟩

/-- The working directory `/` is joined to a relative `dir` by one more `/`. -/
theorem makePath_root_cwd :
    (makePath "/" "logs").map Prod.fst = some "//logs/" := by
  decide

/-! ## Construction when `mkdir` fails -/

/-- C14 fails as stated: every `mkdir` of `makePath` fails and the directory is
missing, so that `fopen` fails too.  `makePath` returns the directory string all
the same, the constructor goes on to `rollFile`, which passes its guard, assigns
`lastRoll` and `startOfPeriod` and constructs the `File`; no error is reported,
the null stream reaches `setvbuf`. -/
theorem LogFile.newIn_counterexample :
    makePathIn fsNothing "/" "/nonexistent/logs"
        = some ("/nonexistent/logs/",
            [("", false), ("/nonexistent", false), ("/nonexistent/logs", false)]) ∧
      LogFile.newIn fsNothing exampleEnv "/" 1704164645 "/nonexistent/logs" "app" 4 false
        = .nullStream { dir := "/nonexistent/logs/", basename := "app", rollSize := 4,
                        mutex := false, startOfPeriod := 1704153600, lastRoll := 1704164645,
                        file := none, filesOpened := 0 } := by
  decide

/-- C14, amended. The results of `mkdir` are never read: whatever the `mkdir`
calls of `makePath` answer, `makePath` yields the same directory string and the
construction ends the same way, going on to `rollFile`; when the clock reads a
positive value, the directory fits the buffer and `fopen` returns a stream, it
ends with a writer that has a current file, even if every `mkdir` failed. -/
theorem LogFile.newIn_ignores_mkdir (fs1 fs2 : FsAnswers) (env : Env) (cwd : String)
    (now : Int) (dir basename : String) (rollSize : Nat) (threadSafe : Bool)
    (hfopen : fs1.fopen = fs2.fopen) :
    (makePathIn fs1 cwd dir).map Prod.fst = (makePathIn fs2 cwd dir).map Prod.fst ∧
      LogFile.newIn fs1 env cwd now dir basename rollSize threadSafe
        = LogFile.newIn fs2 env cwd now dir basename rollSize threadSafe ∧
      (0 < now → (makePath cwd dir).isSome →
        (∀ name, fs1.fopen name = true) →
        ∃ s f, LogFile.newIn fs1 env cwd now dir basename rollSize threadSafe = .writer s ∧
          LogFile.new env cwd now dir basename rollSize threadSafe = some s ∧
          s.file = some f ∧ f.writtenBytes = 0 ∧ s.lastRoll = now) := by
  refine ⟨?_, ?_, ?_⟩
  · unfold makePathIn
    cases makePath cwd dir <;> rfl
  · unfold LogFile.newIn makePathIn
    cases makePath cwd dir with
    | none => rfl
    | some r => simp only [hfopen]
  · intro hnow hdir hopen
    obtain ⟨r, hr⟩ := Option.isSome_iff_exists.mp hdir
    have hgt : (getLogFileName env r.1 basename now).2 > 0 := hnow
    have hrun : LogFile.new env cwd now dir basename rollSize threadSafe
        = some (LogFile.rollFile env
            { dir := r.1, basename := basename, rollSize := rollSize, mutex := threadSafe,
              startOfPeriod := 0, lastRoll := 0, file := none, filesOpened := 0 } now) := by
      simp only [LogFile.new, hr]
    refine ⟨_, File.new (getLogFileName env r.1 basename now).1, ?_, hrun, ?_, rfl, ?_⟩
    · simp only [LogFile.newIn, makePathIn, hr, hgt, if_true, hopen]
    · rw [LogFile.rollFile_commit env _ now hnow]
    · rw [LogFile.rollFile_commit env _ now hnow]

/-- C14, amended, for a construction in which every `mkdir` fails and one in
which every `mkdir` succeeds: both end with the same writer. -/
theorem LogFile.newIn_ignores_mkdir_witness :
    LogFile.newIn fsNoMkdir exampleEnv "/" 1704164645 "/var/log" "app" 4 false
        = .writer exampleState ∧
      LogFile.newIn fsAll exampleEnv "/" 1704164645 "/var/log" "app" 4 false
        = .writer exampleState ∧
      makePathIn fsNoMkdir "/" "/var/log"
        = some ("/var/log/", [("", false), ("/var", false), ("/var/log", false)]) ∧
      LogFile.newIn fsNoMkdir exampleEnv "/" 1704164645 "/var/log" "app" 4 false
        = LogFile.newIn fsAll exampleEnv "/" 1704164645 "/var/log" "app" 4 false :=
  ⟨by decide, by decide, by decide,
    (LogFile.newIn_ignores_mkdir fsNoMkdir fsAll exampleEnv "/" 1704164645 "/var/log" "app" 4
      false rfl).2.1⟩

end thefox
